import Mathlib

/-!
Verification of the key-custody access-structure code
(`helpers/wallet_enumerations.py` and `helpers/computations.py`).

Bitmasks are embedded as `Nat` with the bitwise operations `&&&`, `|||`,
`<<<`; probabilities are embedded as exact rationals `ℚ`; the probability
dictionary becomes a partial map `KeyState → Option ℚ`, and functions that
raise exceptions return `Except String`.
-/

set_option maxHeartbeats 1000000

/-- Modelled from the spec: the four key states SAFE, LOST, LEAKED, STOLEN
(the `consts` module that declares them is not among the sources). -/
inductive KeyState where
  | SAFE
  | LOST
  | LEAKED
  | STOLEN
deriving DecidableEq

/-- Modelled from the spec: the collection `consts.KeyStates` holding the
four key states, in a fixed order (the `consts` module is not among the
sources; no claim depends on the order of this list). -/
def KeyStatesList : List KeyState :=
  [KeyState.SAFE, KeyState.LOST, KeyState.LEAKED, KeyState.STOLEN]

/-- Modelled from the spec: `sorted(KeyStates)`, the four key states in a
fixed canonical order (the sort key lives in the missing `consts` module;
no claim depends on the order of this list). -/
def sortedKeyStates : List KeyState :=
  [KeyState.SAFE, KeyState.LOST, KeyState.LEAKED, KeyState.STOLEN]

/-- `isCovered` from `wallet_enumerations.py`: is some wallet combination a
bitmask subset of `keyCombination`? -/
def isCovered (keyCombination : Nat) (wallet : List Nat) : Bool :=
  wallet.any fun walletCombination =>
    walletCombination &&& keyCombination == walletCombination

/-- `enumerateStaticSubWallets` from `wallet_enumerations.py`; the loop
`for currCombi in range(prevCombi + 1, 2 ** keyCount)` is rendered as a
recursion on the first candidate `prevCombi + 1`, with an explicit fuel
argument (always called with fuel `2 ^ keyCount - prevCombi`, which covers
the whole range) so that the recursion is structural. -/
def enumerateStaticSubWalletsFuel : Nat → List Nat → Nat → Nat → List (List Nat)
  | 0, _, _, _ => []
  | fuel + 1, baseWallet, prevCombi, keyCount =>
    if prevCombi + 1 < 2 ^ keyCount then
      let currCombi := prevCombi + 1
      (if !isCovered currCombi baseWallet then
        [baseWallet ++ [currCombi]] ++
          enumerateStaticSubWalletsFuel fuel (baseWallet ++ [currCombi]) currCombi keyCount
      else []) ++
      enumerateStaticSubWalletsFuel fuel baseWallet currCombi keyCount
    else []

/-- `enumerateStaticSubWallets(baseWallet, prevCombi, keyCount)`. -/
def enumerateStaticSubWallets (baseWallet : List Nat) (prevCombi keyCount : Nat) :
    List (List Nat) :=
  enumerateStaticSubWalletsFuel (2 ^ keyCount - prevCombi) baseWallet prevCombi keyCount

/-- Helper for `permuteBits`: the loop `for i, target_pos in
enumerate(permutation, start=1)`, with `j = i - 1` the 0-based bit index. -/
def permuteBitsAux (number : Nat) : List Nat → Nat → Nat
  | [], _ => 0
  | targetPos :: rest, j =>
    (if number &&& (1 <<< j) != 0 then 1 <<< (targetPos - 1) else 0) |||
      permuteBitsAux number rest (j + 1)

/-- `permuteBits` from `wallet_enumerations.py`: apply a permutation of
1-based bit positions to a bitmask. -/
def permuteBits (number : Nat) (permutation : List Nat) : Nat :=
  permuteBitsAux number permutation 0

/-- Python tuple comparison `<` on equal-typed integer tuples:
lexicographic, with a proper prefix smaller than the longer tuple. -/
def tupleLt : List Nat → List Nat → Bool
  | [], [] => false
  | [], _ :: _ => true
  | _ :: _, [] => false
  | x :: xs, y :: ys => x < y || (x == y && tupleLt xs ys)

/-- `canonicalizeWallet` from `wallet_enumerations.py`: the
lexicographically smallest sorted tuple of permuted combinations over all
permutations of `1..keyCount`. `none` corresponds to Python's initial
`best = None` and is never the result, `permutations` being non-empty. -/
def canonicalizeWallet (wallet : List Nat) (keyCount : Nat) : Option (List Nat) :=
  (List.range' 1 keyCount).permutations'.foldl
    (fun best perm =>
      let transformed :=
        (wallet.map fun c => permuteBits c perm).insertionSort (· ≤ ·)
      match best with
      | none => some transformed
      | some b => if tupleLt transformed b then some transformed else some b)
    none

/-- Helper for `deduplicateWalletsByArchitecture`: one pass over the
wallets, carrying the set `seen` of canonical forms already produced. -/
def deduplicateWalletsAux : List (List Nat) → Nat → List (Option (List Nat)) → List (List Nat)
  | [], _, _ => []
  | wallet :: rest, keyCount, seen =>
    let canon := canonicalizeWallet wallet keyCount
    if canon ∈ seen then deduplicateWalletsAux rest keyCount seen
    else wallet :: deduplicateWalletsAux rest keyCount (canon :: seen)

/-- `deduplicateWalletsByArchitecture` from `wallet_enumerations.py`. -/
def deduplicateWalletsByArchitecture (wallets : List (List Nat)) (keyCount : Nat) :
    List (List Nat) :=
  deduplicateWalletsAux wallets keyCount []

/-- `enumerateStaticWallets` from `wallet_enumerations.py`. -/
def enumerateStaticWallets (keyCount : Nat) (deduplicateByArchitecture : Bool) :
    List (List Nat) :=
  let wallets := enumerateStaticSubWallets [] 0 keyCount
  if deduplicateByArchitecture then deduplicateWalletsByArchitecture wallets keyCount
  else wallets

/-- The assertion `set(keyStateProbabilities.keys()) == set(KeyStates)`:
with the dictionary embedded as a partial map on `KeyState`, it says the
map is defined on every key state. -/
def allStatesDefined (keyStateProbabilities : KeyState → Option ℚ) : Bool :=
  KeyStatesList.all fun s => (keyStateProbabilities s).isSome

/-- The list comprehension `[keyStateProbabilities[state] for state in
sorted(KeyStates)]`: look up every state, failing (Python's `KeyError`)
as soon as one is missing. -/
def lookupStateProbs (keyStateProbabilities : KeyState → Option ℚ) :
    List KeyState → Option (List ℚ)
  | [] => some []
  | s :: rest =>
    match keyStateProbabilities s, lookupStateProbs keyStateProbabilities rest with
    | some v, some vs => some (v :: vs)
    | _, _ => none

/-- `enumerateStates` from `wallet_enumerations.py`. `keyCount = 0` stands
for Python's `keyCount <= 0` (a negative count takes the same immediate
error path). The `KeyError` raised by `keyStateProbabilities[state]` on a
missing state and the failed assertion become `Except.error`. In the
recursive case the states and probabilities are accumulated in lock-step,
as the two parallel `append` calls do. -/
def enumerateStates : Nat → (KeyState → Option ℚ) →
    Except String (List (List KeyState) × List ℚ)
  | 0, _ => .error "Invalid number of keys"
  | 1, keyStateProbabilities =>
    match lookupStateProbs keyStateProbabilities sortedKeyStates with
    | none => .error "KeyError"
    | some probabilities => .ok (sortedKeyStates.map fun s => [s], probabilities)
  | keyCount + 2, keyStateProbabilities =>
    if allStatesDefined keyStateProbabilities then
      match enumerateStates (keyCount + 1) keyStateProbabilities with
      | .error e => .error e
      | .ok (stateSuffix, suffixesProbabilities) =>
        let pairs := KeyStatesList.flatMap fun keyState =>
          (stateSuffix.zip suffixesProbabilities).map fun sp =>
            (keyState :: sp.1, (keyStateProbabilities keyState).getD 0 * sp.2)
        .ok (pairs.map Prod.fst, pairs.map Prod.snd)
    else .error "AssertionError"

/-- The per-state `(ownerHasAccess, adversaryHasAccess)` table from
`ownerAdvKeysFromStates`, as 0/1 integers as in the source. -/
def ownerAdvBits : KeyState → Nat × Nat
  | .SAFE => (1, 0)
  | .LOST => (0, 0)
  | .LEAKED => (1, 1)
  | .STOLEN => (0, 1)

/-- The inner loop of `ownerAdvKeysFromStates`: accumulate
`bools * 2 ** i` for each key state, `i` being the 0-based digit index. -/
def ownerAdvKeysFromStateAux : List KeyState → Nat → Nat × Nat
  | [], _ => (0, 0)
  | keyState :: rest, i =>
    let bools := ownerAdvBits keyState
    let restPair := ownerAdvKeysFromStateAux rest (i + 1)
    (bools.1 * 2 ^ i + restPair.1, bools.2 * 2 ^ i + restPair.2)

/-- The owner and adversary bitmasks of one key-state assignment. -/
def ownerAdvKeysFromState (state : List KeyState) : Nat × Nat :=
  ownerAdvKeysFromStateAux state 0

/-- `ownerAdvKeysFromStates` from `wallet_enumerations.py`. -/
def ownerAdvKeysFromStates (states : List (List KeyState)) : List Nat × List Nat :=
  (states.map fun state => (ownerAdvKeysFromState state).1,
   states.map fun state => (ownerAdvKeysFromState state).2)

/-- `computeSuccessProbability` from `computations.py`: sum the
probability of every state index where the owner covers the wallet and the
adversary does not. -/
def computeSuccessProbability (wallet : List Nat) (ownerStates advStates : List Nat)
    (probabilities : List ℚ) : ℚ :=
  (List.range probabilities.length).foldl
    (fun total i =>
      if isCovered (ownerStates.getD i 0) wallet && !isCovered (advStates.getD i 0) wallet then
        total + probabilities.getD i 0
      else total)
    0

/-- The tie tolerance `1e-12` of `findOptimalWallet`. -/
def tieTolerance : ℚ := 1 / 10 ^ 12

/-- `findOptimalWallet` from `computations.py`. -/
def findOptimalWallet (wallets : List (List Nat)) (keyCount : Nat)
    (keyStateProbabilities : KeyState → Option ℚ) :
    Except String (List (List Nat) × ℚ) :=
  match enumerateStates keyCount keyStateProbabilities with
  | .error e => .error e
  | .ok (states, stateProbabilities) =>
    let ownerAdv := ownerAdvKeysFromStates states
    .ok (wallets.foldl
      (fun best wallet =>
        let p := computeSuccessProbability wallet ownerAdv.1 ownerAdv.2 stateProbabilities
        if |p - best.2| < tieTolerance then (best.1 ++ [wallet], best.2)
        else if p > best.2 then ([wallet], p)
        else best)
      ([], -1))

/-- The success probability of one wallet against the state space derived
from `enumerateStates` and `ownerAdvKeysFromStates` (the score that
`findOptimalWallet` computes for each candidate). -/
def walletSuccessProbability (keyCount : Nat) (keyStateProbabilities : KeyState → Option ℚ)
    (wallet : List Nat) : Option ℚ :=
  match enumerateStates keyCount keyStateProbabilities with
  | .error _ => none
  | .ok (states, stateProbabilities) =>
    let ownerAdv := ownerAdvKeysFromStates states
    some (computeSuccessProbability wallet ownerAdv.1 ownerAdv.2 stateProbabilities)

/-- The sum of the probability list returned by `enumerateStates`. -/
def enumeratedProbabilitySum (keyCount : Nat) (keyStateProbabilities : KeyState → Option ℚ) :
    Option ℚ :=
  match enumerateStates keyCount keyStateProbabilities with
  | .error _ => none
  | .ok sp => some sp.2.sum

/-- The exact probability of one key-state assignment: the product of the
per-key marginal probabilities. -/
def stateProb (keyStateProbabilities : KeyState → Option ℚ) (state : List KeyState) : ℚ :=
  (state.map fun s => (keyStateProbabilities s).getD 0).prod

/-- Reindexing of a key-state assignment by a permutation of 1-based key
positions: entry `j` of the result is entry `permutation[j] - 1` of the
input, matching how `permuteBits` moves bit `j` to bit
`permutation[j] - 1`. -/
def reorderState (permutation : List Nat) (state : List KeyState) : List KeyState :=
  permutation.map fun targetPos => state.getD (targetPos - 1) KeyState.SAFE

/-- Composition of two 1-based bit-position permutations: applying
`first` and then `second` moves a bit through both tables. -/
def compPerm (first second : List Nat) : List Nat :=
  first.map fun targetPos => second.getD (targetPos - 1) 0

/-- The inverse of a permutation of `1..keyCount` given as a list of
1-based targets. -/
def invPerm (permutation : List Nat) (keyCount : Nat) : List Nat :=
  (List.range' 1 keyCount).map fun t => permutation.indexOf t + 1

/-- The wallets extending `baseWallet` that `enumerateStaticSubWallets`
emits: a non-empty strictly increasing run of combinations in
`(prevCombi, 2 ^ keyCount)`, each not covered by the wallet built so
far. -/
inductive IsExtension (keyCount : Nat) : List Nat → Nat → List Nat → Prop where
  | single (baseWallet : List Nat) (prevCombi currCombi : Nat)
      (hlt : prevCombi < currCombi) (hub : currCombi < 2 ^ keyCount)
      (hcov : isCovered currCombi baseWallet = false) :
      IsExtension keyCount baseWallet prevCombi [currCombi]
  | cons (baseWallet : List Nat) (prevCombi currCombi : Nat) (rest : List Nat)
      (hlt : prevCombi < currCombi) (hub : currCombi < 2 ^ keyCount)
      (hcov : isCovered currCombi baseWallet = false)
      (htail : IsExtension keyCount (baseWallet ++ [currCombi]) currCombi rest) :
      IsExtension keyCount baseWallet prevCombi (currCombi :: rest)

/-- Key-state probabilities used to refute claim C2: chosen so that three
wallets score `1/2 - 1.2e-12`, `1/2 - 0.6e-12` and `1/2`. -/
def c2Probs : KeyState → Option ℚ
  | .SAFE => some (1 / 2)
  | .LOST => some (1 / 4 - 6 / 10 ^ 13)
  | .LEAKED => some (1 / 4 - 12 / 10 ^ 13)
  | .STOLEN => some (18 / 10 ^ 13)

/-- Candidate list used to refute claim C2. -/
def c2Wallets : List (List Nat) := [[3], [1, 2], [1]]

/-- Key-state probabilities used to refute claim C5: every state gets
`1/4 + 3/(16e9)`, so the four values sum to `1 + 0.75e-9`, within the
`1e-9` input tolerance. -/
def c5Probs : KeyState → Option ℚ :=
  fun _ => some (1 / 4 + 3 / (16 * 10 ^ 9))

/-- The probability mass enumerated for `c5Probs` with two keys:
`(1 + 0.75e-9) ^ 2`, which exceeds `1 + 1e-9`. -/
def c5Sum : ℚ := (1 + 3 / (4 * 10 ^ 9)) ^ 2

/-- The body of the `canonicalizeWallet` fold, separated out: keep the
lexicographically smaller of the wallet seen so far and the next one. -/
def pickMin (candidates : List (List Nat)) : Option (List Nat) :=
  candidates.foldl
    (fun best transformed =>
      match best with
      | none => some transformed
      | some b => if tupleLt transformed b then some transformed else some b)
    none

/-- The candidate tuples that `canonicalizeWallet` minimizes over: one
sorted permuted image of the wallet per permutation of `1..keyCount`. -/
def canonCandidates (wallet : List Nat) (keyCount : Nat) : List (List Nat) :=
  (List.range' 1 keyCount).permutations'.map fun perm =>
    (wallet.map fun c => permuteBits c perm).insertionSort (· ≤ ·)

/-- The assignment list of `enumerateStates`, without the probabilities
(projection used to evaluate the state list on concrete inputs). -/
def enumeratedStatesOnly (keyCount : Nat) (keyStateProbabilities : KeyState → Option ℚ) :
    Option (List (List KeyState)) :=
  match enumerateStates keyCount keyStateProbabilities with
  | .error _ => none
  | .ok sp => some sp.1

/-- The four single-key assignments, in the order `enumerateStates`
produces them for one key. -/
def statesOneKey : List (List KeyState) :=
  [[KeyState.SAFE], [KeyState.LOST], [KeyState.LEAKED], [KeyState.STOLEN]]

/-- A total probability profile used in concrete witnesses: every key
state has probability `1/4`. -/
def uniformProbs : KeyState → Option ℚ :=
  fun _ => some (1 / 4)

/-- A probability profile missing the STOLEN state, used in concrete
witnesses for the failure path of `enumerateStates`. -/
def missingProbs : KeyState → Option ℚ :=
  fun s => if s = KeyState.STOLEN then none else some (1 / 3)

/-- `lookupStateProbs` fails as soon as one looked-up state is
undefined. -/
lemma lookupStateProbs_eq_none_of_mem (p : KeyState → Option ℚ) :
    ∀ (l : List KeyState) (a : KeyState), a ∈ l → p a = none →
      lookupStateProbs p l = none := by
  intro l
  induction l with
  | nil => intro a ha _; cases ha
  | cons x xs ih =>
    intro a ha hfa
    rcases List.mem_cons.mp ha with h | h
    · subst h
      simp [lookupStateProbs, hfa]
    · cases hx : p x with
      | none => simp [lookupStateProbs, hx]
      | some v => simp [lookupStateProbs, hx, ih a h hfa]

/-- On a totally defined probability profile and a positive key count,
`enumerateStates` succeeds. -/
lemma enumerateStates_ok_of_valid :
    ∀ (k : Nat), 1 ≤ k → ∀ (p : KeyState → Option ℚ), (∀ s, (p s).isSome = true) →
      ∃ st pr, enumerateStates k p = Except.ok (st, pr) := by
  intro k
  induction k with
  | zero => intro h; omega
  | succ n ih =>
    intro _ p hp
    obtain ⟨vS, hS⟩ := Option.isSome_iff_exists.mp (hp KeyState.SAFE)
    obtain ⟨vL, hL⟩ := Option.isSome_iff_exists.mp (hp KeyState.LOST)
    obtain ⟨vE, hE⟩ := Option.isSome_iff_exists.mp (hp KeyState.LEAKED)
    obtain ⟨vT, hT⟩ := Option.isSome_iff_exists.mp (hp KeyState.STOLEN)
    match n with
    | 0 =>
      refine ⟨[[KeyState.SAFE], [KeyState.LOST], [KeyState.LEAKED], [KeyState.STOLEN]],
        [vS, vL, vE, vT], ?_⟩
      simp [enumerateStates, sortedKeyStates, lookupStateProbs, hS, hL, hE, hT]
    | m + 1 =>
      obtain ⟨st, pr, heq⟩ := ih (by omega) p hp
      have hall : allStatesDefined p = true := by
        simp [allStatesDefined, KeyStatesList, hp]
      exact ⟨_, _, by rw [enumerateStates, if_pos hall, heq]⟩

/-- C4 helper: bitmask inclusion is transitive. -/
lemma and_eq_left_trans {a m m' : Nat} (h₁ : a &&& m = a) (h₂ : m &&& m' = m) :
    a &&& m' = a := by
  calc a &&& m' = (a &&& m) &&& m' := by rw [h₁]
    _ = a &&& (m &&& m') := Nat.and_assoc a m m'
    _ = a &&& m := by rw [h₂]
    _ = a := h₁

/-- C4: coverage is monotonic in the available-keys bitmask: if `m` is a
bitwise subset of `m'` and `m` covers the wallet, so does `m'`. -/
theorem C4_coverage_monotonic (m m' : Nat) (w : List Nat)
    (hsub : m &&& m' = m) (hcov : isCovered m w = true) :
    isCovered m' w = true := by
  rcases List.any_eq_true.mp hcov with ⟨c, hc, hcm⟩
  refine List.any_eq_true.mpr ⟨c, hc, ?_⟩
  have h₁ : c &&& m = c := by exact_mod_cast Nat.beq_eq_true_eq _ _ ▸ hcm
  exact beq_iff_eq.mpr (and_eq_left_trans h₁ hsub)

/-- Witness for C4 at `m = 1`, `m' = 3`, `w = [1]`. -/
theorem C4_witness : isCovered 3 [1] = true :=
  C4_coverage_monotonic 1 3 [1] (by decide) (by decide)

/-- C8: with two keys the enumeration yields exactly the four wallets
`[1]`, `[1,2]`, `[2]`, `[3]` in that order, and deduplication by
architecture collapses `[1]` and `[2]`, leaving `[1]`, `[1,2]`, `[3]`. -/
theorem C8_concrete_two_keys :
    enumerateStaticWallets 2 false = [[1], [1, 2], [2], [3]] ∧
    deduplicateWalletsByArchitecture [[1], [1, 2], [2], [3]] 2 = [[1], [1, 2], [3]] := by
  decide

/-- C6: `enumerateStates` fails for a non-positive key count, fails when a
key state has no probability, and succeeds on every positive key count
with a total probability profile. -/
theorem C6_enumerateStates_validation :
    (∀ (k : Nat) (p : KeyState → Option ℚ), k ≤ 0 →
      ∃ e, enumerateStates k p = Except.error e) ∧
    (∀ (k : Nat) (p : KeyState → Option ℚ), 1 ≤ k → (∃ s, p s = none) →
      ∃ e, enumerateStates k p = Except.error e) ∧
    (∀ (k : Nat) (p : KeyState → Option ℚ), 1 ≤ k → (∀ s, (p s).isSome = true) →
      ∃ st pr, enumerateStates k p = Except.ok (st, pr)) := by
  refine ⟨?_, ?_, ?_⟩
  · intro k p hk
    have hk0 : k = 0 := by omega
    subst hk0
    exact ⟨"Invalid number of keys", rfl⟩
  · intro k p hk ⟨s, hs⟩
    match k, hk with
    | 1, _ =>
      refine ⟨"KeyError", ?_⟩
      have hmem : s ∈ sortedKeyStates := by cases s <;> simp [sortedKeyStates]
      rw [enumerateStates, lookupStateProbs_eq_none_of_mem p sortedKeyStates s hmem hs]
    | m + 2, _ =>
      refine ⟨"AssertionError", ?_⟩
      have hall : allStatesDefined p = false := by
        simp only [allStatesDefined, KeyStatesList]
        cases s <;> simp [hs]
      rw [enumerateStates, if_neg (by simp [hall])]
  · exact fun k p hk hp => enumerateStates_ok_of_valid k hk p hp

/-- Witness for C6: the zero-key failure, the missing-state failure and
the success case at concrete inputs. -/
theorem C6_witness :
    (∃ e, enumerateStates 0 uniformProbs = Except.error e) ∧
    (∃ e, enumerateStates 2 missingProbs = Except.error e) ∧
    (∃ st pr, enumerateStates 1 uniformProbs = Except.ok (st, pr)) :=
  ⟨C6_enumerateStates_validation.1 0 uniformProbs (by decide),
   C6_enumerateStates_validation.2.1 2 missingProbs (by decide)
     ⟨KeyState.STOLEN, by decide⟩,
   C6_enumerateStates_validation.2.2 1 uniformProbs (by decide)
     (fun s => by cases s <;> decide)⟩

/-- C7: on an empty candidate list with a valid key count and a total
probability profile, `findOptimalWallet` returns the sentinel
`([], -1)` without error. -/
theorem C7_empty_input_sentinel (k : Nat) (p : KeyState → Option ℚ)
    (hk : 1 ≤ k) (hp : ∀ s, (p s).isSome = true) :
    findOptimalWallet [] k p = Except.ok ([], -1) := by
  obtain ⟨st, pr, heq⟩ := enumerateStates_ok_of_valid k hk p hp
  rw [findOptimalWallet, heq]
  rfl

/-- Witness for C7 at `keyCount = 1` with the uniform profile. -/
theorem C7_witness : findOptimalWallet [] 1 uniformProbs = Except.ok ([], -1) :=
  C7_empty_input_sentinel 1 uniformProbs (by decide) (fun s => by cases s <;> decide)

/-- Folding a guarded accumulation equals the starting value plus the sum
of the guarded terms. -/
lemma foldl_cond_add (c : Nat → Bool) (v : Nat → ℚ) :
    ∀ (l : List Nat) (acc : ℚ),
      l.foldl (fun total i => if c i then total + v i else total) acc =
        acc + (l.map fun i => if c i then v i else 0).sum := by
  intro l
  induction l with
  | nil => intro acc; simp
  | cons x xs ih =>
    intro acc
    by_cases hx : c x = true
    · simp [hx, ih, add_assoc]
    · simp [hx, ih]

/-- `computeSuccessProbability`, evaluated on the three per-state lists
obtained by mapping over one state list, is the sum of the per-state
contributions. -/
lemma computeSuccessProbability_eq_sum (w : List Nat)
    (f g : List KeyState → Nat) (h : List KeyState → ℚ) :
    ∀ st : List (List KeyState),
      computeSuccessProbability w (st.map f) (st.map g) (st.map h) =
        (st.map fun s => if isCovered (f s) w && !isCovered (g s) w then h s else 0).sum := by
  intro st
  rw [computeSuccessProbability, foldl_cond_add, zero_add]
  congr 1
  induction st with
  | nil => simp
  | cons s rest ih =>
    simp only [List.length_map, List.length_cons, List.range_succ_eq_map,
      List.map_cons, List.map_map]
    refine congrArg₂ _ ?_ ?_
    · simp
    · simp only [List.length_map] at ih
      rw [← ih]
      refine List.map_congr_left fun i hi => ?_
      simp [Function.comp]

/-- Zipping a list with its own image under a map pairs every element
with its image. -/
lemma zip_self_map {α β : Type} (h : α → β) :
    ∀ l : List α, l.zip (l.map h) = l.map fun a => (a, h a) := by
  intro l
  induction l with
  | nil => rfl
  | cons x xs ih => simp [ih]

/-- Prepending pairwise different heads to copies of a duplicate-free
list of lists keeps the result duplicate-free. -/
lemma nodup_flatMap_cons (st : List (List KeyState)) (hst : st.Nodup) :
    ∀ l : List KeyState, l.Nodup →
      (l.flatMap fun ks => st.map fun s => ks :: s).Nodup := by
  intro l
  induction l with
  | nil => intro _; simp
  | cons a rest ih =>
    intro hl
    rw [List.flatMap_cons, List.nodup_append]
    refine ⟨hst.map fun x y hxy => by injection hxy, ih (List.nodup_cons.mp hl).2, ?_⟩
    intro x hx hx2
    obtain ⟨s, _, rfl⟩ := List.mem_map.mp hx
    obtain ⟨b, hb, hbx⟩ := List.mem_flatMap.mp hx2
    obtain ⟨t, _, het⟩ := List.mem_map.mp hbx
    have hba : b = a := (List.cons_eq_cons.mp het).1
    exact absurd (hba ▸ hb) (List.nodup_cons.mp hl).1

/-- Structure of a successful `enumerateStates` run: the probability list
is the pointwise exact product probability of the state list, and the
state list enumerates each assignment of the given length exactly once. -/
lemma enumerateStates_spec :
    ∀ (k : Nat), 1 ≤ k → ∀ (p : KeyState → Option ℚ), (∀ s, (p s).isSome = true) →
      ∃ st, enumerateStates k p = Except.ok (st, st.map (stateProb p)) ∧
        st.Nodup ∧ ∀ s : List KeyState, s ∈ st ↔ s.length = k := by
  intro k
  induction k with
  | zero => intro h; omega
  | succ n ih =>
    intro _ p hp
    obtain ⟨vS, hS⟩ := Option.isSome_iff_exists.mp (hp KeyState.SAFE)
    obtain ⟨vL, hL⟩ := Option.isSome_iff_exists.mp (hp KeyState.LOST)
    obtain ⟨vE, hE⟩ := Option.isSome_iff_exists.mp (hp KeyState.LEAKED)
    obtain ⟨vT, hT⟩ := Option.isSome_iff_exists.mp (hp KeyState.STOLEN)
    match n with
    | 0 =>
      refine ⟨[[KeyState.SAFE], [KeyState.LOST], [KeyState.LEAKED], [KeyState.STOLEN]], ?_, ?_, ?_⟩
      · simp [enumerateStates, sortedKeyStates, lookupStateProbs, stateProb,
          hS, hL, hE, hT]
      · simp
      · intro s
        constructor
        · intro hs
          simp only [List.mem_cons, List.mem_singleton, List.not_mem_nil, or_false] at hs
          rcases hs with rfl | rfl | rfl | rfl <;> rfl
        · intro hs
          obtain ⟨a, rfl⟩ := List.length_eq_one.mp hs
          cases a <;> simp
    | m + 1 =>
      obtain ⟨st, heq, hnd, hmem⟩ := ih (by omega) p hp
      have hall : allStatesDefined p = true := by
        simp [allStatesDefined, KeyStatesList, hp]
      refine ⟨KeyStatesList.flatMap fun ks => st.map fun s => ks :: s, ?_, ?_, ?_⟩
      · rw [show (m + 1 + 1 : Nat) = m + 2 from rfl, enumerateStates, if_pos hall, heq]
        have hzip : st.zip (st.map (stateProb p)) = st.map fun s => (s, stateProb p s) :=
          zip_self_map _ st
        simp only [hzip, List.map_flatMap, List.map_map, Except.ok.injEq, Prod.mk.injEq]
        constructor
        · refine congrArg _ (funext fun ks => ?_)
          exact List.map_congr_left fun s _ => rfl
        · refine congrArg _ (funext fun ks => ?_)
          refine List.map_congr_left fun s _ => ?_
          simp [Function.comp, stateProb]
      · exact nodup_flatMap_cons st hnd KeyStatesList (by decide)
      · intro s
        constructor
        · intro hs
          obtain ⟨ks, _, hsx⟩ := List.mem_flatMap.mp hs
          obtain ⟨t, ht, rfl⟩ := List.mem_map.mp hsx
          simp [(hmem t).mp ht]
        · intro hs
          match s, hs with
          | a :: t, hs =>
            refine List.mem_flatMap.mpr ⟨a, by cases a <;> simp [KeyStatesList], ?_⟩
            refine List.mem_map.mpr ⟨t, (hmem t).mpr ?_, rfl⟩
            simpa using hs

/-- Multiplying every summand on the left scales a list sum. -/
lemma sum_map_mul_left_q {α : Type} (c : ℚ) (f : α → ℚ) (l : List α) :
    (l.map fun x => c * f x).sum = c * (l.map f).sum := by
  induction l with
  | nil => simp
  | cons x xs ih => simp [ih, mul_add]

/-- On a valid run, the states and probabilities of `enumerateStates` have
equal length, and the probabilities sum to the `keyCount`-th power of the
total input mass. -/
lemma enumerateStates_sum :
    ∀ (k : Nat), 1 ≤ k → ∀ (p : KeyState → Option ℚ), (∀ s, (p s).isSome = true) →
      ∀ st pr, enumerateStates k p = Except.ok (st, pr) →
        st.length = pr.length ∧
        pr.sum = ((p KeyState.SAFE).getD 0 + (p KeyState.LOST).getD 0 +
          (p KeyState.LEAKED).getD 0 + (p KeyState.STOLEN).getD 0) ^ k := by
  intro k
  induction k with
  | zero => intro h; omega
  | succ n ih =>
    intro _ p hp st pr heq
    obtain ⟨vS, hS⟩ := Option.isSome_iff_exists.mp (hp KeyState.SAFE)
    obtain ⟨vL, hL⟩ := Option.isSome_iff_exists.mp (hp KeyState.LOST)
    obtain ⟨vE, hE⟩ := Option.isSome_iff_exists.mp (hp KeyState.LEAKED)
    obtain ⟨vT, hT⟩ := Option.isSome_iff_exists.mp (hp KeyState.STOLEN)
    match n, heq with
    | 0, heq =>
      have hstep : enumerateStates 1 p =
          Except.ok ([[KeyState.SAFE], [KeyState.LOST], [KeyState.LEAKED], [KeyState.STOLEN]],
            [vS, vL, vE, vT]) := by
        simp [enumerateStates, sortedKeyStates, lookupStateProbs, hS, hL, hE, hT]
      rw [hstep] at heq
      injection heq with h
      injection h with h1 h2
      subst h1
      subst h2
      refine ⟨rfl, ?_⟩
      simp [hS, hL, hE, hT]
      ring
    | m + 1, heq =>
      have hall : allStatesDefined p = true := by
        simp [allStatesDefined, KeyStatesList, hp]
      obtain ⟨st', pr', heq'⟩ := enumerateStates_ok_of_valid (m + 1) (by omega) p hp
      obtain ⟨hlen', hsum'⟩ := ih (by omega) p hp st' pr' heq'
      have hstep : enumerateStates (m + 2) p =
          Except.ok
            ((KeyStatesList.flatMap fun keyState =>
                (st'.zip pr').map fun sp =>
                  (keyState :: sp.1, (p keyState).getD 0 * sp.2)).map Prod.fst,
             (KeyStatesList.flatMap fun keyState =>
                (st'.zip pr').map fun sp =>
                  (keyState :: sp.1, (p keyState).getD 0 * sp.2)).map Prod.snd) := by
        rw [enumerateStates, if_pos hall, heq']
      rw [show (m + 1 + 1 : Nat) = m + 2 from rfl, hstep] at heq
      injection heq with h
      injection h with h1 h2
      subst h1
      subst h2
      have hsnd : ∀ ks : KeyState,
          ((st'.zip pr').map fun sp => (p ks).getD 0 * sp.2).sum =
            (p ks).getD 0 * pr'.sum := by
        intro ks
        have : ((st'.zip pr').map fun sp => (p ks).getD 0 * sp.2) =
            ((st'.zip pr').map Prod.snd).map fun x => (p ks).getD 0 * x := by
          simp
        rw [this, sum_map_mul_left_q, List.map_snd_zip st' pr' (le_of_eq hlen'.symm)]
        simp
      constructor
      · simp
      · have hflat : ∀ (F : KeyState → List (ℚ)),
            (KeyStatesList.flatMap F).sum = ((KeyStatesList.map F).map List.sum).sum := by
          intro F
          rw [List.flatMap, List.sum_flatten]
        simp only [List.map_flatMap, List.map_map]
        rw [hflat]
        simp only [KeyStatesList, List.map_cons, List.map_nil, List.sum_cons,
          List.sum_nil]
        have hc : ∀ ks : KeyState,
            List.map (Prod.snd ∘ fun sp : List KeyState × ℚ =>
              (ks :: sp.1, (p ks).getD 0 * sp.2)) (st'.zip pr') =
            List.map (fun sp => (p ks).getD 0 * sp.2) (st'.zip pr') :=
          fun ks => List.map_congr_left fun sp _ => rfl
        rw [hc KeyState.SAFE, hc KeyState.LOST, hc KeyState.LEAKED, hc KeyState.STOLEN,
          hsnd KeyState.SAFE, hsnd KeyState.LOST, hsnd KeyState.LEAKED, hsnd KeyState.STOLEN,
          hsum']
        ring

/-- C5 (amended): when the four input probabilities sum exactly to 1, the
probabilities returned by `enumerateStates` sum exactly to 1 (and hence
are within the `1e-9` tolerance). -/
theorem C5_amended_mass_conservation (k : Nat) (p : KeyState → Option ℚ)
    (hk : 1 ≤ k) (hp : ∀ s, (p s).isSome = true)
    (hmass : (p KeyState.SAFE).getD 0 + (p KeyState.LOST).getD 0 +
      (p KeyState.LEAKED).getD 0 + (p KeyState.STOLEN).getD 0 = 1)
    (st : List (List KeyState)) (pr : List ℚ)
    (heq : enumerateStates k p = Except.ok (st, pr)) :
    pr.sum = 1 ∧ |pr.sum - 1| ≤ 1 / 10 ^ 9 := by
  have h := (enumerateStates_sum k hk p hp st pr heq).2
  rw [hmass, one_pow] at h
  exact ⟨h, by rw [h]; norm_num⟩

/-- Witness for the amended C5 at `keyCount = 1` with the uniform
profile. -/
theorem C5_witness :
    ([1 / 4, 1 / 4, 1 / 4, 1 / 4] : List ℚ).sum = 1 ∧
      |([1 / 4, 1 / 4, 1 / 4, 1 / 4] : List ℚ).sum - 1| ≤ 1 / 10 ^ 9 :=
  C5_amended_mass_conservation 1 uniformProbs (by norm_num) (fun s => rfl)
    (by norm_num [uniformProbs])
    [[KeyState.SAFE], [KeyState.LOST], [KeyState.LEAKED], [KeyState.STOLEN]]
    [1 / 4, 1 / 4, 1 / 4, 1 / 4]
    (by simp [enumerateStates, sortedKeyStates, lookupStateProbs, uniformProbs])

/-- Counterexample to C5 as stated: with two keys and a profile whose
values sum to `1 + 0.75e-9` (within the `1e-9` input tolerance), the
enumerated probabilities sum to `(1 + 0.75e-9)^2`, which is not within
`1e-9` of 1. -/
theorem C5_counterexample :
    |(c5Probs KeyState.SAFE).getD 0 + (c5Probs KeyState.LOST).getD 0 +
      (c5Probs KeyState.LEAKED).getD 0 + (c5Probs KeyState.STOLEN).getD 0 - 1| ≤ 1 / 10 ^ 9 ∧
    (∃ st pr, enumerateStates 2 c5Probs = Except.ok (st, pr) ∧ pr.sum = c5Sum) ∧
    ¬ |c5Sum - 1| ≤ 1 / 10 ^ 9 := by
  refine ⟨?_, ?_, ?_⟩
  · have h : (c5Probs KeyState.SAFE).getD 0 + (c5Probs KeyState.LOST).getD 0 +
        (c5Probs KeyState.LEAKED).getD 0 + (c5Probs KeyState.STOLEN).getD 0 - 1 =
        3 / (4 * 10 ^ 9) := by
      norm_num [c5Probs]
    rw [h, abs_of_nonneg (by norm_num)]
    norm_num
  · obtain ⟨st, pr, heq⟩ := enumerateStates_ok_of_valid 2 (by norm_num) c5Probs fun s => rfl
    refine ⟨st, pr, heq, ?_⟩
    have h := (enumerateStates_sum 2 (by norm_num) c5Probs (fun s => rfl) st pr heq).2
    rw [h]
    norm_num [c5Probs, c5Sum]
  · have h : (c5Sum - 1 : ℚ) = 3 / (2 * 10 ^ 9) + 9 / (16 * 10 ^ 18) := by
      rw [c5Sum]; ring
    rw [h, abs_of_nonneg (by norm_num)]
    norm_num

/-- Counterexample to C2 as stated: with `c2Probs` the three candidates
score `1/2 - 1.2e-12`, `1/2 - 0.6e-12` and `1/2` in that order; the middle
one is absorbed as a tie of the first, and both are discarded when the
third arrives, although the middle one is within `1e-12` of the returned
best probability. -/
theorem C2_counterexample :
    findOptimalWallet c2Wallets 2 c2Probs = Except.ok ([[1]], 1 / 2) ∧
    [1, 2] ∈ c2Wallets ∧
    walletSuccessProbability 2 c2Probs [1, 2] = some (1 / 2 - 6 / 10 ^ 13) ∧
    |(1 / 2 - 6 / 10 ^ 13 : ℚ) - 1 / 2| < tieTolerance ∧
    [1, 2] ∉ ([[1]] : List (List Nat)) := by
  have hp2 : ∀ s, (c2Probs s).isSome = true := fun s => by cases s <;> rfl
  obtain ⟨st, heq, hnd, hmem⟩ := enumerateStates_spec 2 (by norm_num) c2Probs hp2
  have hproj : enumeratedStatesOnly 2 c2Probs = some st := by
    rw [enumeratedStatesOnly, heq]
  have hstval : enumeratedStatesOnly 2 c2Probs = some
      [[KeyState.SAFE, KeyState.SAFE], [KeyState.SAFE, KeyState.LOST],
       [KeyState.SAFE, KeyState.LEAKED], [KeyState.SAFE, KeyState.STOLEN],
       [KeyState.LOST, KeyState.SAFE], [KeyState.LOST, KeyState.LOST],
       [KeyState.LOST, KeyState.LEAKED], [KeyState.LOST, KeyState.STOLEN],
       [KeyState.LEAKED, KeyState.SAFE], [KeyState.LEAKED, KeyState.LOST],
       [KeyState.LEAKED, KeyState.LEAKED], [KeyState.LEAKED, KeyState.STOLEN],
       [KeyState.STOLEN, KeyState.SAFE], [KeyState.STOLEN, KeyState.LOST],
       [KeyState.STOLEN, KeyState.LEAKED], [KeyState.STOLEN, KeyState.STOLEN]] := by
    decide
  have hst := Option.some.inj (hproj.symm.trans hstval)
  have hoa1 : (ownerAdvKeysFromStates st).1 =
      st.map fun s => (ownerAdvKeysFromState s).1 := rfl
  have hoa2 : (ownerAdvKeysFromStates st).2 =
      st.map fun s => (ownerAdvKeysFromState s).2 := rfl
  have hv1 : computeSuccessProbability [3] (ownerAdvKeysFromStates st).1
      (ownerAdvKeysFromStates st).2 (st.map (stateProb c2Probs)) = 1 / 2 - 12 / 10 ^ 13 := by
    rw [hoa1, hoa2, computeSuccessProbability_eq_sum, hst]
    simp +decide [stateProb, c2Probs]
    norm_num
  have hv2 : computeSuccessProbability [1, 2] (ownerAdvKeysFromStates st).1
      (ownerAdvKeysFromStates st).2 (st.map (stateProb c2Probs)) = 1 / 2 - 6 / 10 ^ 13 := by
    rw [hoa1, hoa2, computeSuccessProbability_eq_sum, hst]
    simp +decide [stateProb, c2Probs]
    norm_num
  have hv3 : computeSuccessProbability [1] (ownerAdvKeysFromStates st).1
      (ownerAdvKeysFromStates st).2 (st.map (stateProb c2Probs)) = 1 / 2 := by
    rw [hoa1, hoa2, computeSuccessProbability_eq_sum, hst]
    simp +decide [stateProb, c2Probs]
    norm_num
  have hfold : findOptimalWallet c2Wallets 2 c2Probs = Except.ok ([[1]], 1 / 2) := by
    rw [findOptimalWallet, heq]
    simp only [c2Wallets, List.foldl_cons, List.foldl_nil]
    rw [hv1, hv2, hv3]
    norm_num [tieTolerance, abs_of_nonneg]
  have hwsp : walletSuccessProbability 2 c2Probs [1, 2] = some (1 / 2 - 6 / 10 ^ 13) := by
    simp only [walletSuccessProbability, heq]
    rw [hv2]
  refine ⟨hfold, by decide, hwsp, ?_, by decide⟩
  have hdiff : (1 / 2 - 6 / 10 ^ 13 : ℚ) - 1 / 2 = -(6 / 10 ^ 13) := by ring
  rw [hdiff, abs_neg, abs_of_nonneg (by norm_num), tieTolerance]
  norm_num

/-- The tie tolerance is positive. -/
lemma tieTolerance_pos : (0 : ℚ) < tieTolerance := by norm_num [tieTolerance]

/-- Invariant of the best-set fold of `findOptimalWallet`: starting from a
state whose members all score below `best + tolerance`, the running best
never decreases, and every processed or carried wallet whose score equals
the final best probability is in the final best-set. -/
lemma optimalFold_spec (v : List Nat → ℚ) :
    ∀ (L : List (List Nat)) (S : List (List Nat)) (b : ℚ) (R : List (List Nat) × ℚ),
      (∀ x ∈ S, v x < b + tieTolerance) →
      L.foldl (fun best wallet =>
        if |v wallet - best.2| < tieTolerance then (best.1 ++ [wallet], best.2)
        else if v wallet > best.2 then ([wallet], v wallet) else best) (S, b) = R →
      b ≤ R.2 ∧ (∀ x ∈ S, v x = R.2 → x ∈ R.1) ∧ (∀ w ∈ L, v w = R.2 → w ∈ R.1) := by
  intro L
  induction L with
  | nil =>
    intro S b R hS hR
    rw [List.foldl_nil] at hR
    subst hR
    exact ⟨le_refl _, fun x hx _ => hx, fun w hw => absurd hw (List.not_mem_nil w)⟩
  | cons w L ih =>
    intro S b R hS hfold
    simp only [List.foldl_cons] at hfold
    by_cases h1 : |v w - b| < tieTolerance
    · rw [if_pos h1] at hfold
      have hS' : ∀ x ∈ S ++ [w], v x < b + tieTolerance := by
        intro x hx
        rcases List.mem_append.mp hx with hx | hx
        · exact hS x hx
        · rw [List.mem_singleton.mp hx]
          have := (abs_lt.mp h1).2
          linarith
      obtain ⟨hb, hSp, hLp⟩ := ih (S ++ [w]) b R hS' hfold
      refine ⟨hb, fun x hx hv => hSp x (List.mem_append_left _ hx) hv, ?_⟩
      intro w' hw' hv
      rcases List.mem_cons.mp hw' with rfl | hmem
      · exact hSp w' (List.mem_append_right _ (List.mem_singleton.mpr rfl)) hv
      · exact hLp w' hmem hv
    · by_cases h2 : v w > b
      · rw [if_neg h1, if_pos h2] at hfold
        have hS' : ∀ x ∈ [w], v x < v w + tieTolerance := by
          intro x hx
          rw [List.mem_singleton.mp hx]
          linarith [tieTolerance_pos]
        obtain ⟨hb, hSp, hLp⟩ := ih [w] (v w) R hS' hfold
        refine ⟨le_trans (le_of_lt h2) hb, ?_, ?_⟩
        · intro x hx hv
          have hge : b + tieTolerance ≤ v w := by
            by_contra hc
            push_neg at hc
            exact h1 (abs_lt.mpr ⟨by linarith [tieTolerance_pos], by linarith⟩)
          have hxw : v x < v w := lt_of_lt_of_le (hS x hx) hge
          exact absurd hv (ne_of_lt (lt_of_lt_of_le hxw hb))
        · intro w' hw' hv
          rcases List.mem_cons.mp hw' with rfl | hmem
          · exact hSp w' (List.mem_singleton.mpr rfl) hv
          · exact hLp w' hmem hv
      · rw [if_neg h1, if_neg h2] at hfold
        obtain ⟨hb, hSp, hLp⟩ := ih S b R hS hfold
        refine ⟨hb, hSp, ?_⟩
        intro w' hw' hv
        rcases List.mem_cons.mp hw' with rfl | hmem
        · exfalso
          have hne : v w' ≠ b := by
            intro he
            apply h1
            rw [he, sub_self, abs_zero]
            exact tieTolerance_pos
          have hlt : v w' < b := lt_of_le_of_ne (not_lt.mp h2) hne
          have := hv ▸ hb
          linarith
        · exact hLp w' hmem hv

/-- C2 (amended): every candidate whose success probability is exactly
equal to the returned best probability is a member of the returned
best-set; candidates merely within `1e-12` of the final best may be
dropped when a later candidate exceeded the then-current best by at least
the tolerance. -/
theorem C2_amended_exact_ties (wallets : List (List Nat)) (k : Nat)
    (p : KeyState → Option ℚ) (st : List (List KeyState)) (pr : List ℚ)
    (bw : List (List Nat)) (bp : ℚ)
    (_hne : wallets ≠ [])
    (heq : enumerateStates k p = Except.ok (st, pr))
    (hfind : findOptimalWallet wallets k p = Except.ok (bw, bp)) :
    ∀ w ∈ wallets,
      computeSuccessProbability w (ownerAdvKeysFromStates st).1
        (ownerAdvKeysFromStates st).2 pr = bp → w ∈ bw := by
  rw [findOptimalWallet, heq] at hfind
  have hX := Except.ok.inj hfind
  intro w hw hv
  exact (optimalFold_spec
    (fun wallet => computeSuccessProbability wallet (ownerAdvKeysFromStates st).1
      (ownerAdvKeysFromStates st).2 pr)
    wallets [] (-1) (bw, bp) (by simp) hX).2.2 w hw hv

/-- Witness for the amended C2: with one key, the uniform profile and the
single candidate `[1]` scoring `1/4`, the exactly-optimal candidate is in
the returned best-set. -/
theorem C2_witness : ([1] : List Nat) ∈ ([[1]] : List (List Nat)) := by
  have hp1 : ∀ s, (uniformProbs s).isSome = true := fun s => rfl
  obtain ⟨st, heq, _, _⟩ := enumerateStates_spec 1 (by norm_num) uniformProbs hp1
  have hproj : enumeratedStatesOnly 1 uniformProbs = some st := by
    rw [enumeratedStatesOnly, heq]
  have hstval : enumeratedStatesOnly 1 uniformProbs = some
      [[KeyState.SAFE], [KeyState.LOST], [KeyState.LEAKED], [KeyState.STOLEN]] := by
    decide
  have hst := Option.some.inj (hproj.symm.trans hstval)
  have hoa1 : (ownerAdvKeysFromStates st).1 =
      st.map fun s => (ownerAdvKeysFromState s).1 := rfl
  have hoa2 : (ownerAdvKeysFromStates st).2 =
      st.map fun s => (ownerAdvKeysFromState s).2 := rfl
  have hv : computeSuccessProbability [1] (ownerAdvKeysFromStates st).1
      (ownerAdvKeysFromStates st).2 (st.map (stateProb uniformProbs)) = 1 / 4 := by
    rw [hoa1, hoa2, computeSuccessProbability_eq_sum, hst]
    simp +decide [stateProb, uniformProbs]
  have hfind : findOptimalWallet [[1]] 1 uniformProbs = Except.ok ([[1]], 1 / 4) := by
    rw [findOptimalWallet, heq]
    simp only [List.foldl_cons, List.foldl_nil]
    rw [hv]
    norm_num [tieTolerance, abs_of_nonneg]
  exact C2_amended_exact_ties [[1]] 1 uniformProbs st (st.map (stateProb uniformProbs))
    [[1]] (1 / 4) (by simp) heq hfind [1] (List.mem_singleton.mpr rfl) hv

/-- Tuple comparison is irreflexive. -/
lemma tupleLt_irrefl : ∀ l : List Nat, tupleLt l l = false := by
  intro l
  induction l with
  | nil => rfl
  | cons x xs ih => simp [tupleLt, ih]

/-- Tuple comparison is transitive. -/
lemma tupleLt_trans : ∀ a b c : List Nat,
    tupleLt a b = true → tupleLt b c = true → tupleLt a c = true := by
  intro a
  induction a with
  | nil =>
    intro b c hab hbc
    match c with
    | [] =>
      exfalso
      cases b <;> simp [tupleLt] at hab hbc
    | _ :: _ => rfl
  | cons x xs ih =>
    intro b c hab hbc
    match b, c with
    | [], _ => simp [tupleLt] at hab
    | _ :: _, [] => simp [tupleLt] at hbc
    | y :: ys, z :: zs =>
      simp only [tupleLt, Bool.or_eq_true, Bool.and_eq_true, decide_eq_true_eq,
        beq_iff_eq] at hab hbc ⊢
      rcases hab with h | ⟨rfl, h⟩
      · rcases hbc with h2 | ⟨rfl, h2⟩
        · exact Or.inl (lt_trans h h2)
        · exact Or.inl h
      · rcases hbc with h2 | ⟨rfl, h2⟩
        · exact Or.inl h2
        · exact Or.inr ⟨rfl, ih ys zs h h2⟩

/-- Two tuples neither of which is smaller than the other are equal. -/
lemma tupleLt_antisymm_eq : ∀ a b : List Nat,
    tupleLt a b = false → tupleLt b a = false → a = b := by
  intro a
  induction a with
  | nil =>
    intro b h1 _
    match b with
    | [] => rfl
    | _ :: _ => simp [tupleLt] at h1
  | cons x xs ih =>
    intro b h1 h2
    match b with
    | [] => simp [tupleLt] at h2
    | y :: ys =>
      simp only [tupleLt, Bool.or_eq_false_iff, Bool.and_eq_false_iff,
        decide_eq_false_iff_not, not_lt, beq_eq_false_iff_ne, ne_eq] at h1 h2
      have hxy : x = y := le_antisymm h2.1 h1.1
      subst hxy
      rcases h1.2 with h | h
      · exact absurd rfl h
      · rcases h2.2 with h2' | h2'
        · exact absurd rfl h2'
        · rw [ih ys h h2']

/-- The running fold of `pickMin`, started on `some m`, returns a minimum
of `m` and the remaining candidates. -/
lemma pickMin_go : ∀ (L : List (List Nat)) (m : List Nat),
    ∃ r, L.foldl (fun best transformed =>
        match best with
        | none => some transformed
        | some b => if tupleLt transformed b then some transformed else some b)
      (some m) = some r ∧
      r ∈ m :: L ∧ tupleLt m r = false ∧ ∀ c ∈ L, tupleLt c r = false := by
  intro L
  induction L with
  | nil =>
    intro m
    exact ⟨m, rfl, List.mem_singleton.mpr rfl, tupleLt_irrefl m, by simp⟩
  | cons t L ih =>
    intro m
    by_cases htm : tupleLt t m = true
    · obtain ⟨r, hfold, hmem, hmin, hall⟩ := ih t
      refine ⟨r, ?_, ?_, ?_, ?_⟩
      · simp only [List.foldl_cons, htm, if_pos]
        exact hfold
      · rcases List.mem_cons.mp hmem with rfl | h
        · exact List.mem_cons_of_mem _ (List.mem_cons_self _ _)
        · exact List.mem_cons_of_mem _ (List.mem_cons_of_mem _ h)
      · by_contra hc
        rw [Bool.not_eq_false] at hc
        have : tupleLt t r = true := tupleLt_trans t m r htm hc
        rw [this] at hmin
        cases hmin
      · intro c hc
        rcases List.mem_cons.mp hc with rfl | h
        · exact hmin
        · exact hall c h
    · rw [Bool.not_eq_true] at htm
      obtain ⟨r, hfold, hmem, hmin, hall⟩ := ih m
      refine ⟨r, ?_, ?_, hmin, ?_⟩
      · simp only [List.foldl_cons, htm, if_neg, Bool.false_eq_true, not_false_iff]
        exact hfold
      · rcases List.mem_cons.mp hmem with rfl | h
        · exact List.mem_cons_self _ _
        · exact List.mem_cons_of_mem _ (List.mem_cons_of_mem _ h)
      · intro c hc
        rcases List.mem_cons.mp hc with rfl | h
        · by_contra hcr
          rw [Bool.not_eq_false] at hcr
          rcases htr : tupleLt m r with _ | _
          · have hrm : r = m := tupleLt_antisymm_eq r m (by
              by_contra hx
              rw [Bool.not_eq_false] at hx
              rw [tupleLt_trans c r m hcr hx] at htm
              cases htm) htr
            rw [hrm] at hcr
            rw [hcr] at htm
            cases htm
          · rw [htr] at hmin
            cases hmin
        · exact hall c h

/-- `pickMin` of a non-empty candidate list returns a member below which
no candidate compares. -/
lemma pickMin_spec (L : List (List Nat)) (hne : L ≠ []) :
    ∃ m, pickMin L = some m ∧ m ∈ L ∧ ∀ c ∈ L, tupleLt c m = false := by
  match L, hne with
  | t :: L, _ =>
    obtain ⟨r, hfold, hmem, hmin, hall⟩ := pickMin_go L t
    refine ⟨r, ?_, hmem, ?_⟩
    · rw [pickMin, List.foldl_cons]
      exact hfold
    · intro c hc
      rcases List.mem_cons.mp hc with rfl | h
      · exact hmin
      · exact hall c h

/-- `pickMin` returns the unique minimum: any member below which no
candidate compares is the result. -/
lemma pickMin_unique (L : List (List Nat)) (m : List Nat)
    (hm : m ∈ L) (hmin : ∀ c ∈ L, tupleLt c m = false) :
    pickMin L = some m := by
  obtain ⟨r, hpick, hrmem, hrall⟩ := pickMin_spec L (by rintro rfl; cases hm)
  have hrm : r = m := tupleLt_antisymm_eq r m (hmin r hrmem) (hrall m hm)
  rw [hpick, hrm]

/-- `canonicalizeWallet` is `pickMin` over the candidate tuples. -/
lemma canonicalizeWallet_eq_pickMin (wallet : List Nat) (keyCount : Nat) :
    canonicalizeWallet wallet keyCount = pickMin (canonCandidates wallet keyCount) := by
  rw [canonicalizeWallet, canonCandidates, pickMin, List.foldl_map]

/-- `getD` at an in-range index is `getElem`. -/
lemma getD_of_lt {α : Type} (l : List α) (d : α) (j : Nat) (h : j < l.length) :
    l.getD j d = l[j] := by
  rw [List.getD_eq_getElem?_getD, List.getElem?_eq_getElem h]
  rfl

/-- The bit test `number & (1 << j) != 0` used by `permuteBits` is
`testBit`. -/
lemma and_shift_ne_zero (n j : Nat) : (n &&& (1 <<< j) != 0) = n.testBit j := by
  rw [Nat.one_shiftLeft]
  rcases h : n.testBit j with _ | _
  · have hz : n &&& 2 ^ j = 0 := by
      apply Nat.eq_of_testBit_eq
      intro i
      rw [Nat.testBit_and, Nat.zero_testBit, Nat.testBit_two_pow]
      by_cases hij : j = i
      · subst hij
        rw [h]
        simp
      · simp [hij]
    rw [hz]
    rfl
  · have hbit : (n &&& 2 ^ j).testBit j = true := by
      rw [Nat.testBit_and, h, Nat.testBit_two_pow]
      simp
    rcases hz : n &&& 2 ^ j with _ | m
    · rw [hz, Nat.zero_testBit] at hbit
      cases hbit
    · simp

/-- Bit `b` of `permuteBitsAux n perm j0` is set exactly when some source
bit `j0 + j` of `n` is set and `perm` sends position `j` to `b`. -/
lemma testBit_permuteBitsAux : ∀ (perm : List Nat) (j0 n b : Nat),
    (permuteBitsAux n perm j0).testBit b = true ↔
      ∃ j, j < perm.length ∧ n.testBit (j0 + j) = true ∧ perm.getD j 0 - 1 = b := by
  intro perm
  induction perm with
  | nil =>
    intro j0 n b
    simp [permuteBitsAux]
  | cons t rest ih =>
    intro j0 n b
    rw [permuteBitsAux, Nat.testBit_or]
    constructor
    · intro h
      rw [Bool.or_eq_true] at h
      rcases h with h | h
      · by_cases hc : (n &&& (1 <<< j0) != 0) = true
        · rw [if_pos hc] at h
          rw [Nat.one_shiftLeft, Nat.testBit_two_pow] at h
          refine ⟨0, by simp, ?_, ?_⟩
          · rw [Nat.add_zero, ← and_shift_ne_zero]
            exact hc
          · simpa using decide_eq_true_eq.mp h
        · rw [if_neg hc] at h
          rw [Nat.zero_testBit] at h
          cases h
      · obtain ⟨j, hj, hbit, hgd⟩ := (ih (j0 + 1) n b).mp h
        refine ⟨j + 1, by simpa using hj, ?_, by simpa using hgd⟩
        rw [show j0 + (j + 1) = j0 + 1 + j by omega]
        exact hbit
    · rintro ⟨j, hj, hbit, hgd⟩
      rw [Bool.or_eq_true]
      match j with
      | 0 =>
        left
        have hc : (n &&& (1 <<< j0) != 0) = true := by
          rw [and_shift_ne_zero]
          simpa using hbit
        rw [if_pos hc, Nat.one_shiftLeft, Nat.testBit_two_pow]
        simpa using hgd
      | j + 1 =>
        right
        refine (ih (j0 + 1) n b).mpr ⟨j, by simpa using hj, ?_, by simpa using hgd⟩
        rw [show j0 + 1 + j = j0 + (j + 1) by omega]
        exact hbit

/-- Bit `b` of `permuteBits n perm` is set exactly when some source bit
`j` of `n` is set and `perm` sends position `j` to `b`. -/
lemma testBit_permuteBits (n : Nat) (perm : List Nat) (b : Nat) :
    (permuteBits n perm).testBit b = true ↔
      ∃ j, j < perm.length ∧ n.testBit j = true ∧ perm.getD j 0 - 1 = b := by
  rw [permuteBits, testBit_permuteBitsAux]
  simp

/-- Members of a permutation of `1..k` lie in `[1, k]`. -/
lemma mem_perm_range' {π : List Nat} {k t : Nat}
    (hπ : π.Perm (List.range' 1 k)) (ht : t ∈ π) : 1 ≤ t ∧ t ≤ k := by
  have hmem : t ∈ List.range' 1 k := hπ.mem_iff.mp ht
  rw [List.mem_range'] at hmem
  obtain ⟨i, hi, rfl⟩ := hmem
  omega

/-- `permuteBits` with targets bounded by `k` produces a mask below
`2 ^ k`. -/
lemma permuteBits_lt (n : Nat) (perm : List Nat) (k : Nat)
    (h : ∀ t ∈ perm, 1 ≤ t ∧ t ≤ k) : permuteBits n perm < 2 ^ k := by
  apply Nat.lt_pow_two_of_testBit
  intro i hik
  by_contra hc
  rw [Bool.not_eq_false] at hc
  obtain ⟨j, hj, _, hgd⟩ := (testBit_permuteBits n perm i).mp hc
  have hmem : perm.getD j 0 ∈ perm := by
    rw [getD_of_lt perm 0 j hj]
    exact List.getElem_mem hj
  obtain ⟨h1, h2⟩ := h _ hmem
  omega

/-- `compPerm` preserves the length of its first argument. -/
lemma compPerm_length (a b : List Nat) : (compPerm a b).length = a.length :=
  List.length_map a _

/-- Entrywise description of `compPerm`. -/
lemma compPerm_getD (a b : List Nat) (j : Nat) (hj : j < a.length) :
    (compPerm a b).getD j 0 = b.getD (a.getD j 0 - 1) 0 := by
  rw [compPerm, getD_of_lt _ 0 j (by simpa using hj), List.getElem_map,
    getD_of_lt a 0 j hj]

/-- Applying two bit permutations in sequence is applying their
composition. -/
lemma permuteBits_compPerm (n : Nat) (a b : List Nat)
    (ha : ∀ t ∈ a, 1 ≤ t ∧ t ≤ b.length) :
    permuteBits (permuteBits n a) b = permuteBits n (compPerm a b) := by
  apply Nat.eq_of_testBit_eq
  intro i
  rw [Bool.eq_iff_iff, testBit_permuteBits, testBit_permuteBits]
  constructor
  · rintro ⟨j2, hj2, hbit2, hgd2⟩
    obtain ⟨j, hj, hbit, hgd⟩ := (testBit_permuteBits n a j2).mp hbit2
    refine ⟨j, by simpa [compPerm_length] using hj, hbit, ?_⟩
    rw [compPerm_getD a b j hj, hgd, hgd2]
  · rintro ⟨j, hj, hbit, hgd⟩
    rw [compPerm_length] at hj
    have hmem : a.getD j 0 ∈ a := by
      rw [getD_of_lt a 0 j hj]
      exact List.getElem_mem hj
    obtain ⟨h1, h2⟩ := ha _ hmem
    refine ⟨a.getD j 0 - 1, by omega, ?_, ?_⟩
    · exact (testBit_permuteBits n a _).mpr ⟨j, hj, hbit, rfl⟩
    · rw [← compPerm_getD a b j hj]
      exact hgd

/-- The identity permutation `1..k` leaves a mask below `2 ^ k`
unchanged. -/
lemma permuteBits_range' (k n : Nat) (hn : n < 2 ^ k) :
    permuteBits n (List.range' 1 k) = n := by
  apply Nat.eq_of_testBit_eq
  intro b
  rw [Bool.eq_iff_iff, testBit_permuteBits]
  constructor
  · rintro ⟨j, hj, hbit, hgd⟩
    rw [List.length_range'] at hj
    rw [getD_of_lt _ 0 j (by simpa using hj), List.getElem_range'] at hgd
    have hjb : j = b := by omega
    rw [← hjb]
    exact hbit
  · intro hb
    have hbk : b < k := by
      by_contra hc
      push_neg at hc
      have : n.testBit b = false :=
        Nat.testBit_lt_two_pow (lt_of_lt_of_le hn (Nat.pow_le_pow_right (by omega) hc))
      rw [this] at hb
      cases hb
    refine ⟨b, by simpa using hbk, hb, ?_⟩
    rw [getD_of_lt _ 0 b (by simpa using hbk), List.getElem_range']
    omega

/-- Pre-composing with the identity permutation gives the permutation
itself. -/
lemma compPerm_range'_left (ρ : List Nat) (k : Nat) (hlen : ρ.length = k) :
    compPerm (List.range' 1 k) ρ = ρ := by
  apply List.ext_getElem
  · simp [compPerm_length, hlen]
  · intro j h1 h2
    simp only [compPerm, List.getElem_map, List.getElem_range']
    rw [show 1 + 1 * j - 1 = j by omega, getD_of_lt ρ 0 j h2]

/-- Composition with a length-`k` permutation on the right sends a
permutation of `1..k` to a permutation of the right argument. -/
lemma compPerm_perm (π ρ : List Nat) (k : Nat)
    (hπ : π.Perm (List.range' 1 k)) (hρ : ρ.length = k) :
    (compPerm π ρ).Perm ρ := by
  have h1 : (compPerm π ρ).Perm (compPerm (List.range' 1 k) ρ) :=
    List.Perm.map _ hπ
  rw [compPerm_range'_left ρ k hρ] at h1
  exact h1

/-- Composition of position permutations is associative. -/
lemma compPerm_assoc (a b c : List Nat) (ha : ∀ t ∈ a, 1 ≤ t ∧ t ≤ b.length) :
    compPerm (compPerm a b) c = compPerm a (compPerm b c) := by
  apply List.ext_getElem
  · simp [compPerm_length]
  · intro j h1 h2
    rw [compPerm_length, compPerm_length] at h1
    have hja : j < a.length := h1
    rw [← getD_of_lt _ 0 j (by simpa [compPerm_length] using hja),
      ← getD_of_lt _ 0 j (by simpa [compPerm_length] using hja),
      compPerm_getD _ c j (by simpa [compPerm_length] using hja),
      compPerm_getD a b j hja, compPerm_getD a _ j hja]
    have hmem : a.getD j 0 ∈ a := by
      rw [getD_of_lt a 0 j hja]
      exact List.getElem_mem hja
    obtain ⟨ht1, ht2⟩ := ha _ hmem
    rw [compPerm_getD b c _ (by omega)]

/-- `invPerm` has length `keyCount`. -/
lemma invPerm_length (π : List Nat) (k : Nat) : (invPerm π k).length = k := by
  simp [invPerm]

/-- Entrywise description of `invPerm`. -/
lemma invPerm_getD (π : List Nat) (k b : Nat) (hb : b < k) :
    (invPerm π k).getD b 0 = π.indexOf (b + 1) + 1 := by
  rw [invPerm, getD_of_lt _ 0 b (by simpa using hb), List.getElem_map,
    List.getElem_range']
  rw [show 1 + 1 * b = b + 1 by omega]

/-- The inverse of a permutation of `1..k` is a permutation of `1..k`. -/
lemma invPerm_perm (π : List Nat) (k : Nat) (hπ : π.Perm (List.range' 1 k)) :
    (invPerm π k).Perm (List.range' 1 k) := by
  have hlen : π.length = k := by simpa using hπ.length_eq
  have hsub : invPerm π k ⊆ List.range' 1 k := by
    intro t ht
    obtain ⟨b1, hb1, rfl⟩ := List.mem_map.mp ht
    have hb1π : b1 ∈ π := hπ.mem_iff.mpr hb1
    have hidx : π.indexOf b1 < k := by
      rw [← hlen]
      exact List.indexOf_lt_length.mpr hb1π
    rw [List.mem_range']
    exact ⟨π.indexOf b1, hidx, by omega⟩
  have hnd2 : (invPerm π k).Nodup := by
    rw [invPerm]
    refine List.Nodup.map_on ?_ (List.nodup_range' 1 k)
    intro x hx y hy hxy
    have hxπ : x ∈ π := hπ.mem_iff.mpr hx
    have hyπ : y ∈ π := hπ.mem_iff.mpr hy
    have h1 : π.indexOf x = π.indexOf y := by omega
    exact (List.indexOf_inj hxπ hyπ).mp h1
  refine (List.subperm_of_subset hnd2 hsub).perm_of_length_le ?_
  simp [invPerm_length]

/-- A permutation of `1..k` composed with its inverse is the identity
permutation `1..k`. -/
lemma compPerm_invPerm (π : List Nat) (k : Nat) (hπ : π.Perm (List.range' 1 k)) :
    compPerm π (invPerm π k) = List.range' 1 k := by
  have hlen : π.length = k := by simpa using hπ.length_eq
  have hnd : π.Nodup := hπ.nodup_iff.mpr (List.nodup_range' 1 k)
  apply List.ext_getElem
  · simp [compPerm_length, hlen]
  · intro j h1 h2
    rw [compPerm_length] at h1
    simp only [compPerm, List.getElem_map, List.getElem_range']
    have hmem : π[j] ∈ π := List.getElem_mem h1
    obtain ⟨ht1, ht2⟩ := mem_perm_range' hπ hmem
    rw [invPerm_getD π k (π[j] - 1) (by omega), show π[j] - 1 + 1 = π[j] by omega]
    have hidxlt : π.indexOf π[j] < π.length := List.indexOf_lt_length.mpr hmem
    have h3 := List.getElem_indexOf hidxlt
    have hidx : π.indexOf π[j] = j := hnd.getElem_inj_iff.mp h3
    omega

/-- Membership in the candidate list of `canonicalizeWallet`. -/
lemma mem_canonCandidates (w : List Nat) (k : Nat) (c : List Nat) :
    c ∈ canonCandidates w k ↔ ∃ ρ, ρ.Perm (List.range' 1 k) ∧
      c = (w.map fun x => permuteBits x ρ).insertionSort (· ≤ ·) := by
  rw [canonCandidates]
  constructor
  · intro hc
    obtain ⟨ρ, hρ, rfl⟩ := List.mem_map.mp hc
    exact ⟨ρ, List.mem_permutations'.mp hρ, rfl⟩
  · rintro ⟨ρ, hρ, rfl⟩
    exact List.mem_map.mpr ⟨ρ, List.mem_permutations'.mpr hρ, rfl⟩

/-- The candidate list is never empty: the identity permutation always
contributes. -/
lemma canonCandidates_ne_nil (w : List Nat) (k : Nat) : canonCandidates w k ≠ [] :=
  List.ne_nil_of_mem
    ((mem_canonCandidates w k _).mpr ⟨List.range' 1 k, List.Perm.refl _, rfl⟩)

/-- Sorting two lists that are permutations of each other gives the same
sorted list. -/
lemma sort_eq_of_perm (l₁ l₂ : List Nat) (h : l₁.Perm l₂) :
    l₁.insertionSort (· ≤ ·) = l₂.insertionSort (· ≤ ·) :=
  List.eq_of_perm_of_sorted
    ((List.perm_insertionSort _ _).trans (h.trans (List.perm_insertionSort _ _).symm))
    (List.sorted_insertionSort _ _) (List.sorted_insertionSort _ _)

/-- Mapping two bit permutations over a wallet in sequence maps their
composition. -/
lemma map_permuteBits_comp (w : List Nat) (π ρ : List Nat)
    (hπb : ∀ t ∈ π, 1 ≤ t ∧ t ≤ ρ.length) :
    ((w.map fun x => permuteBits x π).map fun x => permuteBits x ρ) =
      w.map fun x => permuteBits x (compPerm π ρ) := by
  rw [List.map_map]
  exact List.map_congr_left fun x _ => permuteBits_compPerm x π ρ hπb

/-- Every candidate of the relabeled wallet is a candidate of the
original wallet. -/
lemma canonCandidates_subset_of_perm (w : List Nat) (k : Nat) (π : List Nat)
    (hπ : π.Perm (List.range' 1 k)) :
    ∀ c ∈ canonCandidates (w.map fun x => permuteBits x π) k,
      c ∈ canonCandidates w k := by
  intro c hc
  obtain ⟨ρ, hρ, rfl⟩ := (mem_canonCandidates _ _ _).mp hc
  have hρlen : ρ.length = k := by simpa using hρ.length_eq
  have hπb : ∀ t ∈ π, 1 ≤ t ∧ t ≤ ρ.length := by
    intro t ht
    obtain ⟨h1, h2⟩ := mem_perm_range' hπ ht
    omega
  refine (mem_canonCandidates _ _ _).mpr ⟨compPerm π ρ,
    (compPerm_perm π ρ k hπ hρlen).trans hρ, ?_⟩
  rw [map_permuteBits_comp w π ρ hπb]

/-- Every candidate of the original wallet is a candidate of the
relabeled wallet. -/
lemma canonCandidates_superset_of_perm (w : List Nat) (k : Nat) (π : List Nat)
    (hπ : π.Perm (List.range' 1 k)) :
    ∀ c ∈ canonCandidates w k,
      c ∈ canonCandidates (w.map fun x => permuteBits x π) k := by
  intro c hc
  obtain ⟨ρ, hρ, rfl⟩ := (mem_canonCandidates _ _ _).mp hc
  have hρlen : ρ.length = k := by simpa using hρ.length_eq
  have hinv : (invPerm π k).Perm (List.range' 1 k) := invPerm_perm π k hπ
  have hσ : (compPerm (invPerm π k) ρ).Perm (List.range' 1 k) :=
    (compPerm_perm (invPerm π k) ρ k hinv hρlen).trans hρ
  have hπσb : ∀ t ∈ π, 1 ≤ t ∧ t ≤ (compPerm (invPerm π k) ρ).length := by
    intro t ht
    obtain ⟨h1, h2⟩ := mem_perm_range' hπ ht
    rw [compPerm_length, invPerm_length]
    omega
  have hπib : ∀ t ∈ π, 1 ≤ t ∧ t ≤ (invPerm π k).length := by
    intro t ht
    obtain ⟨h1, h2⟩ := mem_perm_range' hπ ht
    rw [invPerm_length]
    omega
  refine (mem_canonCandidates _ _ _).mpr ⟨compPerm (invPerm π k) ρ, hσ, ?_⟩
  rw [map_permuteBits_comp w π _ hπσb, ← compPerm_assoc π (invPerm π k) ρ hπib,
    compPerm_invPerm π k hπ, compPerm_range'_left ρ k hρlen]

/-- C10: canonicalization is invariant under key relabeling: relabeling
the keys of a wallet by any permutation of `1..keyCount` does not change
its canonical form. -/
theorem C10_canonicalize_relabel_invariant (w : List Nat) (k : Nat) (_hk : 1 ≤ k)
    (_hw : ∀ c ∈ w, c < 2 ^ k) (π : List Nat) (hπ : π.Perm (List.range' 1 k)) :
    canonicalizeWallet (w.map fun c => permuteBits c π) k = canonicalizeWallet w k := by
  rw [canonicalizeWallet_eq_pickMin, canonicalizeWallet_eq_pickMin]
  obtain ⟨m1, h1, h1mem, h1min⟩ :=
    pickMin_spec _ (canonCandidates_ne_nil (w.map fun c => permuteBits c π) k)
  obtain ⟨m2, h2, h2mem, h2min⟩ := pickMin_spec _ (canonCandidates_ne_nil w k)
  rw [h1, h2]
  have e : m1 = m2 := tupleLt_antisymm_eq m1 m2
    (h2min m1 (canonCandidates_subset_of_perm w k π hπ m1 h1mem))
    (h1min m2 (canonCandidates_superset_of_perm w k π hπ m2 h2mem))
  rw [e]

/-- Witness for C10 at `keyCount = 2`, `w = [1]`, `π = [2, 1]`. -/
theorem C10_witness :
    canonicalizeWallet ([1].map fun c => permuteBits c [2, 1]) 2 =
      canonicalizeWallet [1] 2 :=
  C10_canonicalize_relabel_invariant [1] 2 (by decide) (by decide) [2, 1] (by decide)

/-- C9: canonicalization is idempotent: re-canonicalizing a canonical
form yields itself. -/
theorem C9_canonicalize_idempotent (w : List Nat) (k : Nat) (_hk : 1 ≤ k)
    (cw : List Nat) (hcw : canonicalizeWallet w k = some cw) :
    canonicalizeWallet cw k = some cw := by
  rw [canonicalizeWallet_eq_pickMin] at hcw
  obtain ⟨m, hm, hmem, hmin⟩ := pickMin_spec _ (canonCandidates_ne_nil w k)
  rw [hm] at hcw
  have hcm : m = cw := Option.some.inj hcw
  subst hcm
  obtain ⟨ρ₀, hρ₀, hmdef⟩ := (mem_canonCandidates w k m).mp hmem
  have hρ₀len : ρ₀.length = k := by simpa using hρ₀.length_eq
  have hsorted : List.Sorted (· ≤ ·) m := by
    rw [hmdef]
    exact List.sorted_insertionSort _ _
  have hperm0 : m.Perm (w.map fun x => permuteBits x ρ₀) := by
    rw [hmdef]
    exact List.perm_insertionSort _ _
  have hlt : ∀ x ∈ m, x < 2 ^ k := by
    intro x hx
    have hx2 : x ∈ w.map fun x => permuteBits x ρ₀ := hperm0.mem_iff.mp hx
    obtain ⟨c, _, rfl⟩ := List.mem_map.mp hx2
    exact permuteBits_lt c ρ₀ k fun t ht => mem_perm_range' hρ₀ ht
  rw [canonicalizeWallet_eq_pickMin]
  apply pickMin_unique
  · refine (mem_canonCandidates m k m).mpr ⟨List.range' 1 k, List.Perm.refl _, ?_⟩
    have hid : (m.map fun x => permuteBits x (List.range' 1 k)) = m := by
      have h := List.map_congr_left fun x hx => permuteBits_range' k x (hlt x hx)
      rw [h]
      exact List.map_id m
    rw [hid, hsorted.insertionSort_eq]
  · intro c hc
    apply hmin
    obtain ⟨ρ, hρ, rfl⟩ := (mem_canonCandidates m k c).mp hc
    have hρlen : ρ.length = k := by simpa using hρ.length_eq
    have hb : ∀ t ∈ ρ₀, 1 ≤ t ∧ t ≤ ρ.length := by
      intro t ht
      obtain ⟨h1, h2⟩ := mem_perm_range' hρ₀ ht
      omega
    refine (mem_canonCandidates w k _).mpr ⟨compPerm ρ₀ ρ,
      (compPerm_perm ρ₀ ρ k hρ₀ hρlen).trans hρ, ?_⟩
    have hp : (m.map fun x => permuteBits x ρ).Perm
        ((w.map fun x => permuteBits x ρ₀).map fun x => permuteBits x ρ) :=
      hperm0.map _
    rw [sort_eq_of_perm _ _ hp, map_permuteBits_comp w ρ₀ ρ hb]

/-- Witness for C9: the canonical form of `[2]` with two keys is `[1]`,
and canonicalizing it again returns it unchanged. -/
theorem C9_witness : canonicalizeWallet [1] 2 = some [1] :=
  C9_canonicalize_idempotent [2] 2 (by decide) [1] (by decide)

/-- Shifting the digit index of the owner/adversary accumulator doubles
both masks. -/
lemma ownerAdvAux_shift : ∀ (s : List KeyState) (i : Nat),
    ownerAdvKeysFromStateAux s (i + 1) =
      (2 * (ownerAdvKeysFromStateAux s i).1, 2 * (ownerAdvKeysFromStateAux s i).2) := by
  intro s
  induction s with
  | nil => intro i; rfl
  | cons x r ih =>
    intro i
    rw [ownerAdvKeysFromStateAux, ownerAdvKeysFromStateAux, ih (i + 1)]
    simp only [Prod.mk.injEq]
    constructor
    · rw [pow_succ]
      ring
    · rw [pow_succ]
      ring

/-- Both owner/adversary access bits are 0 or 1. -/
lemma ownerAdvBits_le (ks : KeyState) :
    (ownerAdvBits ks).1 ≤ 1 ∧ (ownerAdvBits ks).2 ≤ 1 := by
  cases ks <;> simp [ownerAdvBits]

/-- Bit `b` of the owner mask (resp. adversary mask) of an assignment is
the owner (resp. adversary) access bit of the state at position `b`. -/
lemma testBit_ownerAdv : ∀ (s : List KeyState) (b : Nat),
    ((ownerAdvKeysFromState s).1.testBit b = true ↔
      b < s.length ∧ (ownerAdvBits (s.getD b KeyState.SAFE)).1 = 1) ∧
    ((ownerAdvKeysFromState s).2.testBit b = true ↔
      b < s.length ∧ (ownerAdvBits (s.getD b KeyState.SAFE)).2 = 1) := by
  intro s
  induction s with
  | nil =>
    intro b
    constructor <;> simp [ownerAdvKeysFromState, ownerAdvKeysFromStateAux]
  | cons x r ih =>
    intro b
    have hx1 : (ownerAdvBits x).1 ≤ 1 := (ownerAdvBits_le x).1
    have hx2 : (ownerAdvBits x).2 ≤ 1 := (ownerAdvBits_le x).2
    have hcons : ownerAdvKeysFromState (x :: r) =
        ((ownerAdvBits x).1 + 2 * (ownerAdvKeysFromState r).1,
         (ownerAdvBits x).2 + 2 * (ownerAdvKeysFromState r).2) := by
      rw [ownerAdvKeysFromState, ownerAdvKeysFromStateAux, ownerAdvAux_shift r 0]
      simp [ownerAdvKeysFromState]
    rw [hcons]
    match b with
    | 0 =>
      constructor
      · rw [Nat.testBit_zero, Nat.add_mul_mod_self_left,
          Nat.mod_eq_of_lt (by omega), decide_eq_true_eq]
        simp
      · rw [Nat.testBit_zero, Nat.add_mul_mod_self_left,
          Nat.mod_eq_of_lt (by omega), decide_eq_true_eq]
        simp
    | b + 1 =>
      have hdiv1 : ((ownerAdvBits x).1 + 2 * (ownerAdvKeysFromState r).1) / 2 =
          (ownerAdvKeysFromState r).1 := by
        rw [Nat.add_mul_div_left _ _ (by omega : (0:Nat) < 2),
          Nat.div_eq_of_lt (by omega)]
        omega
      have hdiv2 : ((ownerAdvBits x).2 + 2 * (ownerAdvKeysFromState r).2) / 2 =
          (ownerAdvKeysFromState r).2 := by
        rw [Nat.add_mul_div_left _ _ (by omega : (0:Nat) < 2),
          Nat.div_eq_of_lt (by omega)]
        omega
      constructor
      · rw [Nat.testBit_succ, hdiv1, (ih b).1]
        simp [Nat.succ_lt_succ_iff]
      · rw [Nat.testBit_succ, hdiv2, (ih b).2]
        simp [Nat.succ_lt_succ_iff]

/-- Bitmask inclusion, bit by bit. -/
lemma and_eq_left_iff_testBit (a m : Nat) :
    a &&& m = a ↔ ∀ i, a.testBit i = true → m.testBit i = true := by
  constructor
  · intro h i hi
    have h2 := congrArg (Nat.testBit · i) h
    simp only [Nat.testBit_and] at h2
    rw [hi] at h2
    simpa using h2
  · intro h
    apply Nat.eq_of_testBit_eq
    intro i
    rw [Nat.testBit_and]
    cases hta : a.testBit i
    · simp
    · simp [h i hta]

/-- `reorderState` has the length of the permutation. -/
lemma reorderState_length (π : List Nat) (s : List KeyState) :
    (reorderState π s).length = π.length :=
  List.length_map π _

/-- Entrywise description of `reorderState`. -/
lemma reorderState_getD (π : List Nat) (s : List KeyState) (j : Nat)
    (hj : j < π.length) :
    (reorderState π s).getD j KeyState.SAFE = s.getD (π.getD j 0 - 1) KeyState.SAFE := by
  rw [reorderState, getD_of_lt _ _ j (by simpa using hj), List.getElem_map,
    getD_of_lt π 0 j hj]

/-- Reordering by the identity permutation is the identity. -/
lemma reorderState_range' (k : Nat) (s : List KeyState) (hs : s.length = k) :
    reorderState (List.range' 1 k) s = s := by
  apply List.ext_getElem
  · simp [reorderState_length, hs]
  · intro j h1 h2
    simp only [reorderState, List.getElem_map, List.getElem_range']
    rw [show 1 + 1 * j - 1 = j by omega, getD_of_lt s KeyState.SAFE j h2]

/-- Reordering a length-`k` assignment by a permutation of `1..k`
permutes its entries. -/
lemma reorderState_perm (π : List Nat) (k : Nat) (s : List KeyState)
    (hπ : π.Perm (List.range' 1 k)) (hs : s.length = k) :
    (reorderState π s).Perm s := by
  have h1 : (reorderState π s).Perm (reorderState (List.range' 1 k) s) :=
    List.Perm.map _ hπ
  rw [reorderState_range' k s hs] at h1
  exact h1

/-- The exact assignment probability is invariant under reordering. -/
lemma stateProb_reorder (p : KeyState → Option ℚ) (π : List Nat) (k : Nat)
    (s : List KeyState) (hπ : π.Perm (List.range' 1 k)) (hs : s.length = k) :
    stateProb p (reorderState π s) = stateProb p s := by
  rw [stateProb, stateProb]
  exact List.Perm.prod_eq (List.Perm.map _ (reorderState_perm π k s hπ hs))

/-- Transfer of bitmask inclusion through a bit permutation: a permuted
combination is included in a state mask exactly when the combination is
included in the mask of the reordered state. -/
lemma permuted_subset_iff (c k : Nat) (π : List Nat) (s : List KeyState)
    (P : KeyState → Prop) (M MR : Nat)
    (hc : c < 2 ^ k) (hπ : π.Perm (List.range' 1 k)) (hs : s.length = k)
    (hM : ∀ b, M.testBit b = true ↔ b < s.length ∧ P (s.getD b KeyState.SAFE))
    (hMR : ∀ j, MR.testBit j = true ↔
      j < (reorderState π s).length ∧ P ((reorderState π s).getD j KeyState.SAFE)) :
    (permuteBits c π &&& M = permuteBits c π) ↔ (c &&& MR = c) := by
  have hπlen : π.length = k := by simpa using hπ.length_eq
  rw [and_eq_left_iff_testBit, and_eq_left_iff_testBit]
  constructor
  · intro h j hcj
    have hjk : j < k := by
      by_contra hjge
      push_neg at hjge
      rw [Nat.testBit_lt_two_pow
        (lt_of_lt_of_le hc (Nat.pow_le_pow_right (by omega) hjge))] at hcj
      cases hcj
    have hjπ : j < π.length := by omega
    have hpj : (permuteBits c π).testBit (π.getD j 0 - 1) = true :=
      (testBit_permuteBits c π _).mpr ⟨j, hjπ, hcj, rfl⟩
    have hMj := (hM _).mp (h _ hpj)
    refine (hMR j).mpr ⟨by rw [reorderState_length]; omega, ?_⟩
    rw [reorderState_getD π s j hjπ]
    exact hMj.2
  · intro h b hpb
    obtain ⟨j, hjπ, hcj, hgd⟩ := (testBit_permuteBits c π b).mp hpb
    have hj := (hMR j).mp (h j hcj)
    rw [reorderState_length] at hj
    rw [reorderState_getD π s j hjπ] at hj
    have hmem : π.getD j 0 ∈ π := by
      rw [getD_of_lt π 0 j hjπ]
      exact List.getElem_mem hjπ
    obtain ⟨ht1, ht2⟩ := mem_perm_range' hπ hmem
    refine (hM b).mpr ⟨?_, ?_⟩
    · rw [hs]
      omega
    · rw [← hgd]
      exact hj.2

/-- Coverage of a permuted wallet by a state mask is coverage of the
original wallet by the reordered state mask. -/
lemma isCovered_permuted (w : List Nat) (k : Nat) (π : List Nat) (s : List KeyState)
    (P : KeyState → Prop) (M MR : Nat)
    (hw : ∀ c ∈ w, c < 2 ^ k) (hπ : π.Perm (List.range' 1 k)) (hs : s.length = k)
    (hM : ∀ b, M.testBit b = true ↔ b < s.length ∧ P (s.getD b KeyState.SAFE))
    (hMR : ∀ j, MR.testBit j = true ↔
      j < (reorderState π s).length ∧ P ((reorderState π s).getD j KeyState.SAFE)) :
    isCovered M (w.map fun c => permuteBits c π) = isCovered MR w := by
  rw [isCovered, isCovered, List.any_map]
  rw [Bool.eq_iff_iff, List.any_eq_true, List.any_eq_true]
  constructor
  · rintro ⟨c, hc, hcov⟩
    have hcov2 : (permuteBits c π &&& M == permuteBits c π) = true := hcov
    refine ⟨c, hc, ?_⟩
    rw [beq_iff_eq]
    exact (permuted_subset_iff c k π s P M MR (hw c hc) hπ hs hM hMR).mp
      (beq_iff_eq.mp hcov2)
  · rintro ⟨c, hc, hcov⟩
    refine ⟨c, hc, ?_⟩
    show (permuteBits c π &&& M == permuteBits c π) = true
    rw [beq_iff_eq]
    exact (permuted_subset_iff c k π s P M MR (hw c hc) hπ hs hM hMR).mpr
      (beq_iff_eq.mp hcov)

/-- Reordering with a fixed permutation of `1..k` is injective on
length-`k` assignments. -/
lemma reorderState_inj (π : List Nat) (k : Nat) (hπ : π.Perm (List.range' 1 k))
    (s s' : List KeyState) (hs : s.length = k) (hs' : s'.length = k)
    (h : reorderState π s = reorderState π s') : s = s' := by
  apply List.ext_getElem (by omega)
  intro b h1 h2
  have hb : b < k := by omega
  have htπ : b + 1 ∈ π := by
    refine hπ.mem_iff.mpr ?_
    rw [List.mem_range']
    exact ⟨b, hb, by omega⟩
  obtain ⟨j, hjlen, hj⟩ := List.getElem_of_mem htπ
  have hcongr := congrArg (fun l => l.getD j KeyState.SAFE) h
  simp only [reorderState_getD π s j hjlen, reorderState_getD π s' j hjlen] at hcongr
  rw [getD_of_lt π 0 j hjlen, hj] at hcongr
  rw [Nat.add_sub_cancel] at hcongr
  rw [← getD_of_lt s KeyState.SAFE b h1, ← getD_of_lt s' KeyState.SAFE b h2]
  exact hcongr

/-- Reordering every enumerated assignment permutes the list of
enumerated assignments. -/
lemma mapped_states_perm (π : List Nat) (k : Nat) (st : List (List KeyState))
    (hπ : π.Perm (List.range' 1 k)) (hnd : st.Nodup)
    (hmem : ∀ s : List KeyState, s ∈ st ↔ s.length = k) :
    (st.map (reorderState π)).Perm st := by
  have hlen : π.length = k := by simpa using hπ.length_eq
  have hsub : st.map (reorderState π) ⊆ st := by
    intro x hx
    obtain ⟨s, _, rfl⟩ := List.mem_map.mp hx
    refine (hmem _).mpr ?_
    rw [reorderState_length, hlen]
  have hnd2 : (st.map (reorderState π)).Nodup := by
    refine List.Nodup.map_on ?_ hnd
    intro x hx y hy hxy
    exact reorderState_inj π k hπ x y ((hmem x).mp hx) ((hmem y).mp hy) hxy
  refine (List.subperm_of_subset hnd2 hsub).perm_of_length_le ?_
  simp

/-- C3: the success probability is invariant under relabeling the keys of
a wallet by any permutation of `1..keyCount`, evaluated against the state
space enumerated by `enumerateStates` and `ownerAdvKeysFromStates`. -/
theorem C3_symmetry_invariance (w : List Nat) (k : Nat) (hk : 1 ≤ k)
    (hw : ∀ c ∈ w, 1 ≤ c ∧ c < 2 ^ k)
    (π : List Nat) (hπ : π.Perm (List.range' 1 k))
    (p : KeyState → Option ℚ) (hp : ∀ s, (p s).isSome = true)
    (st : List (List KeyState)) (pr : List ℚ)
    (heq : enumerateStates k p = Except.ok (st, pr)) :
    computeSuccessProbability (w.map fun c => permuteBits c π)
      (ownerAdvKeysFromStates st).1 (ownerAdvKeysFromStates st).2 pr =
    computeSuccessProbability w
      (ownerAdvKeysFromStates st).1 (ownerAdvKeysFromStates st).2 pr := by
  obtain ⟨st₀, heq₀, hnd, hmem⟩ := enumerateStates_spec k hk p hp
  rw [heq₀] at heq
  injection heq with h
  injection h with h1 h2
  subst h1
  subst h2
  have hoa1 : (ownerAdvKeysFromStates st₀).1 =
      st₀.map fun s => (ownerAdvKeysFromState s).1 := rfl
  have hoa2 : (ownerAdvKeysFromStates st₀).2 =
      st₀.map fun s => (ownerAdvKeysFromState s).2 := rfl
  rw [hoa1, hoa2, computeSuccessProbability_eq_sum, computeSuccessProbability_eq_sum]
  have hstep : (st₀.map fun s =>
      if isCovered ((ownerAdvKeysFromState s).1) (w.map fun c => permuteBits c π) &&
          !isCovered ((ownerAdvKeysFromState s).2) (w.map fun c => permuteBits c π)
      then stateProb p s else 0) =
      st₀.map ((fun s =>
        if isCovered ((ownerAdvKeysFromState s).1) w &&
            !isCovered ((ownerAdvKeysFromState s).2) w
        then stateProb p s else 0) ∘ reorderState π) := by
    refine List.map_congr_left fun s hs => ?_
    have hslen : s.length = k := (hmem s).mp hs
    have hco : isCovered ((ownerAdvKeysFromState s).1)
        (w.map fun c => permuteBits c π) =
        isCovered ((ownerAdvKeysFromState (reorderState π s)).1) w :=
      isCovered_permuted w k π s (fun ks => (ownerAdvBits ks).1 = 1) _ _
        (fun c hc => (hw c hc).2) hπ hslen
        (fun b => (testBit_ownerAdv s b).1)
        (fun j => (testBit_ownerAdv (reorderState π s) j).1)
    have hca : isCovered ((ownerAdvKeysFromState s).2)
        (w.map fun c => permuteBits c π) =
        isCovered ((ownerAdvKeysFromState (reorderState π s)).2) w :=
      isCovered_permuted w k π s (fun ks => (ownerAdvBits ks).2 = 1) _ _
        (fun c hc => (hw c hc).2) hπ hslen
        (fun b => (testBit_ownerAdv s b).2)
        (fun j => (testBit_ownerAdv (reorderState π s) j).2)
    rw [hco, hca, ← stateProb_reorder p π k s hπ hslen]
    rfl
  rw [hstep, ← List.map_map]
  exact List.Perm.sum_eq (List.Perm.map _ (mapped_states_perm π k st₀ hπ hnd hmem))

/-- Witness for C3 at one key with the identity permutation. -/
theorem C3_witness :
    computeSuccessProbability ([1].map fun c => permuteBits c [1])
      (ownerAdvKeysFromStates statesOneKey).1 (ownerAdvKeysFromStates statesOneKey).2
      [1 / 4, 1 / 4, 1 / 4, 1 / 4] =
    computeSuccessProbability [1]
      (ownerAdvKeysFromStates statesOneKey).1 (ownerAdvKeysFromStates statesOneKey).2
      [1 / 4, 1 / 4, 1 / 4, 1 / 4] :=
  C3_symmetry_invariance [1] 1 (by norm_num) (by decide) [1] (by decide)
    uniformProbs (fun s => rfl) statesOneKey [1 / 4, 1 / 4, 1 / 4, 1 / 4]
    (by simp [enumerateStates, sortedKeyStates, lookupStateProbs, uniformProbs,
      statesOneKey])

/-- Non-coverage, element by element. -/
lemma isCovered_false_iff (m : Nat) (wallet : List Nat) :
    isCovered m wallet = false ↔ ∀ x ∈ wallet, ¬(x &&& m = x) := by
  rw [isCovered, ← Bool.not_eq_true, List.any_eq_true]
  push_neg
  constructor
  · intro h x hx
    have := h x hx
    simpa using this
  · intro h x hx
    simpa using h x hx

/-- Coverage distributes over wallet concatenation. -/
lemma isCovered_append (m : Nat) (l₁ l₂ : List Nat) :
    isCovered m (l₁ ++ l₂) = (isCovered m l₁ || isCovered m l₂) := by
  rw [isCovered, isCovered, isCovered, List.any_append]

/-- Every extension run starts with a combination in
`(prevCombi, 2 ^ keyCount)` not covered by the base wallet. -/
lemma isExtension_head {k : Nat} {base : List Nat} {prev : Nat} {ext : List Nat}
    (h : IsExtension k base prev ext) :
    ∃ c rest, ext = c :: rest ∧ prev < c ∧ c < 2 ^ k ∧ isCovered c base = false := by
  cases h with
  | single base prev c hlt hub hcov => exact ⟨c, [], rfl, hlt, hub, hcov⟩
  | cons base prev c rest hlt hub hcov _ => exact ⟨c, rest, rfl, hlt, hub, hcov⟩

/-- An extension run above `prevCombi` is also one above any smaller
floor. -/
lemma isExtension_relax {k : Nat} {base : List Nat} {prev : Nat} {ext : List Nat}
    (h : IsExtension k base prev ext) (q : Nat) (hq : q ≤ prev) :
    IsExtension k base q ext := by
  cases h with
  | single base prev c hlt hub hcov =>
    exact .single base q c (by omega) hub hcov
  | cons base prev c rest hlt hub hcov htail =>
    exact .cons base q c rest (by omega) hub hcov htail

/-- The floor of an extension run can be raised to anything below its
head. -/
lemma isExtension_set_prev {k : Nat} {base : List Nat} {prev q c : Nat}
    {rest : List Nat} (h : IsExtension k base prev (c :: rest)) (hq : q < c) :
    IsExtension k base q (c :: rest) := by
  cases h with
  | single base prev c hlt hub hcov => exact .single base q c hq hub hcov
  | cons base prev c rest hlt hub hcov htail => exact .cons base q c rest hq hub hcov htail

/-- A wallet is emitted by the (fueled) recursive enumeration exactly
when it extends the base wallet by a valid extension run. -/
lemma mem_subWalletsFuel (k : Nat) :
    ∀ (fuel : Nat) (base : List Nat) (prev : Nat), 2 ^ k ≤ prev + fuel →
      ∀ w, w ∈ enumerateStaticSubWalletsFuel fuel base prev k ↔
        ∃ ext, IsExtension k base prev ext ∧ w = base ++ ext := by
  intro fuel
  induction fuel with
  | zero =>
    intro base prev hf w
    simp only [enumerateStaticSubWalletsFuel, List.not_mem_nil, false_iff]
    rintro ⟨ext, hext, rfl⟩
    obtain ⟨c, rest, rfl, hlt, hub, _⟩ := isExtension_head hext
    omega
  | succ fuel ih =>
    intro base prev hf w
    rw [enumerateStaticSubWalletsFuel]
    by_cases hcond : prev + 1 < 2 ^ k
    · rw [if_pos hcond]
      constructor
      · intro hw
        rcases List.mem_append.mp hw with hw | hw
        · by_cases hcov : isCovered (prev + 1) base = false
          · rw [if_pos (by simp [hcov])] at hw
            rcases List.mem_append.mp hw with hw | hw
            · refine ⟨[prev + 1], .single base prev (prev + 1) (by omega) hcond hcov, ?_⟩
              simpa using hw
            · obtain ⟨ext', hext', rfl⟩ :=
                ((ih (base ++ [prev + 1]) (prev + 1) (by omega) w).mp hw)
              exact ⟨(prev + 1) :: ext',
                .cons base prev (prev + 1) ext' (by omega) hcond hcov hext',
                by simp⟩
          · rw [Bool.not_eq_false] at hcov
            rw [if_neg (by simp [hcov])] at hw
            cases hw
        · obtain ⟨ext, hext, rfl⟩ := (ih base (prev + 1) (by omega) w).mp hw
          exact ⟨ext, isExtension_relax hext prev (by omega), rfl⟩
      · rintro ⟨ext, hext, rfl⟩
        obtain ⟨c₀, rest, rfl, hlt, hub, hcovf⟩ := isExtension_head hext
        by_cases hc0 : c₀ = prev + 1
        · subst hc0
          apply List.mem_append_left
          rw [if_pos (by simp [hcovf])]
          cases hext with
          | single => exact List.mem_append_left _ (List.mem_singleton.mpr rfl)
          | cons _ _ _ _ hlt' hub' hcov' htail =>
            apply List.mem_append_right
            refine (ih (base ++ [prev + 1]) (prev + 1) (by omega) _).mpr
              ⟨rest, htail, ?_⟩
            simp
        · apply List.mem_append_right
          exact (ih base (prev + 1) (by omega) _).mpr
            ⟨c₀ :: rest, isExtension_set_prev hext (by omega), rfl⟩
    · rw [if_neg hcond]
      simp only [List.not_mem_nil, false_iff]
      rintro ⟨ext, hext, rfl⟩
      obtain ⟨c₀, rest, rfl, hlt, hub, _⟩ := isExtension_head hext
      omega

/-- Structural properties of an extension run: non-empty, strictly
increasing above the floor, bounded by `2 ^ keyCount`, an antichain in
the subset order, and never covering the base wallet. -/
lemma isExtension_props {k : Nat} {base : List Nat} {prev : Nat} {ext : List Nat}
    (h : IsExtension k base prev ext) :
    ext ≠ [] ∧ List.Chain (· < ·) prev ext ∧ (∀ a ∈ ext, a < 2 ^ k) ∧
    List.Pairwise (fun a b => ¬(a &&& b = a)) ext ∧
    (∀ a ∈ ext, ∀ c ∈ base, ¬(c &&& a = c)) := by
  induction h with
  | single base prev c hlt hub hcov =>
    refine ⟨by simp, List.Chain.cons hlt List.Chain.nil, by simpa using hub,
      List.pairwise_singleton _ _, ?_⟩
    intro a ha c₂ hc₂
    rw [List.mem_singleton.mp ha]
    exact (isCovered_false_iff _ _).mp hcov c₂ hc₂
  | cons base prev c rest hlt hub hcov htail ih =>
    obtain ⟨hne, hchain, hbnd, hpair, hbase⟩ := ih
    have hbase' : ∀ a ∈ rest, ∀ x ∈ base ++ [c], ¬(x &&& a = x) := hbase
    refine ⟨by simp, ?_, ?_, ?_, ?_⟩
    · refine List.Chain.cons hlt ?_
      obtain ⟨c₁, rest₁, rfl, hlt₁, _, _⟩ := isExtension_head htail
      exact hchain
    · intro a ha
      rcases List.mem_cons.mp ha with rfl | ha
      · exact hub
      · exact hbnd a ha
    · rw [List.pairwise_cons]
      refine ⟨?_, hpair⟩
      intro a ha
      exact hbase' a ha c (List.mem_append_right _ (List.mem_singleton.mpr rfl))
    · intro a ha x hx
      rcases List.mem_cons.mp ha with rfl | ha
      · exact (isCovered_false_iff _ _).mp hcov x hx
      · exact hbase' a ha x (List.mem_append_left _ hx)

/-- The fueled enumeration emits no wallet twice. -/
lemma nodup_subWalletsFuel (k : Nat) :
    ∀ (fuel : Nat) (base : List Nat) (prev : Nat), 2 ^ k ≤ prev + fuel →
      (enumerateStaticSubWalletsFuel fuel base prev k).Nodup := by
  intro fuel
  induction fuel with
  | zero =>
    intro base prev _
    simp [enumerateStaticSubWalletsFuel]
  | succ fuel ih =>
    intro base prev hf
    rw [enumerateStaticSubWalletsFuel]
    by_cases hcond : prev + 1 < 2 ^ k
    · rw [if_pos hcond]
      show ((if (!isCovered (prev + 1) base) = true then
          [base ++ [prev + 1]] ++
            enumerateStaticSubWalletsFuel fuel (base ++ [prev + 1]) (prev + 1) k
        else []) ++ enumerateStaticSubWalletsFuel fuel base (prev + 1) k).Nodup
      by_cases hcov : isCovered (prev + 1) base = false
      · rw [if_pos (by simp [hcov])]
        have hB := ih (base ++ [prev + 1]) (prev + 1) (by omega)
        have hC := ih base (prev + 1) (by omega)
        rw [List.append_assoc, List.nodup_append]
        refine ⟨List.nodup_singleton _, ?_, ?_⟩
        · rw [List.nodup_append]
          refine ⟨hB, hC, ?_⟩
          intro x hxB hxC
          obtain ⟨e1, he1, rfl⟩ :=
            (mem_subWalletsFuel k fuel (base ++ [prev + 1]) (prev + 1) (by omega) x).mp hxB
          obtain ⟨e2, he2, hx2⟩ :=
            (mem_subWalletsFuel k fuel base (prev + 1) (by omega) _).mp hxC
          obtain ⟨c₂, r₂, rfl, hlt₂, _, _⟩ := isExtension_head he2
          rw [List.append_assoc] at hx2
          have : [prev + 1] ++ e1 = c₂ :: r₂ := List.append_inj_right hx2 rfl
          have hhead : prev + 1 = c₂ := by
            have := congrArg (fun l => l.headI) this
            simpa using this
          omega
        · intro x hx1 hx2
          rw [List.mem_singleton.mp hx1] at hx2
          rcases List.mem_append.mp hx2 with hxB | hxC
          · obtain ⟨e1, he1, hx⟩ :=
              (mem_subWalletsFuel k fuel (base ++ [prev + 1]) (prev + 1) (by omega) _).mp hxB
            obtain ⟨hne1, _, _, _, _⟩ := isExtension_props he1
            have hlen := congrArg List.length hx
            simp at hlen
            cases e1 with
            | nil => exact hne1 rfl
            | cons a l => simp at hlen
          · obtain ⟨e2, he2, hx⟩ :=
              (mem_subWalletsFuel k fuel base (prev + 1) (by omega) _).mp hxC
            obtain ⟨c₂, r₂, rfl, hlt₂, _, _⟩ := isExtension_head he2
            have : [prev + 1] = c₂ :: r₂ := List.append_inj_right hx rfl
            have : prev + 1 = c₂ := by
              have h2 := congrArg (fun l => l.headI) this
              simpa using h2
            omega
      · rw [Bool.not_eq_false] at hcov
        rw [if_neg (by simp [hcov])]
        simpa using ih base (prev + 1) (by omega)
    · rw [if_neg hcond]
      simp

/-- Completeness direction: a non-empty increasing run of uncovered
bounded combinations forming an antichain is a valid extension run. -/
lemma isExtension_build (k : Nat) :
    ∀ (ext base : List Nat) (prev : Nat),
      ext ≠ [] → List.Chain (· < ·) prev ext → (∀ a ∈ ext, a < 2 ^ k) →
      (∀ a ∈ ext, isCovered a base = false) →
      List.Pairwise (fun a b => ¬(a &&& b = a)) ext →
      IsExtension k base prev ext := by
  intro ext
  induction ext with
  | nil =>
    intro base prev h
    exact absurd rfl h
  | cons c rest ih =>
    intro base prev _ hchain hub hcov hpair
    rw [List.chain_cons] at hchain
    obtain ⟨hlt, hchain2⟩ := hchain
    cases rest with
    | nil =>
      exact .single base prev c hlt (hub c (by simp)) (hcov c (by simp))
    | cons r rest2 =>
      refine .cons base prev c (r :: rest2) hlt (hub c (by simp)) (hcov c (by simp)) ?_
      refine ih (base ++ [c]) c (by simp) hchain2 ?_ ?_ ?_
      · intro a ha
        exact hub a (List.mem_cons_of_mem _ ha)
      · intro a ha
        rw [isCovered_append]
        have h1 : isCovered a base = false := hcov a (List.mem_cons_of_mem _ ha)
        have h2 : isCovered a [c] = false := by
          rw [isCovered_false_iff]
          intro x hx
          rw [List.mem_singleton.mp hx]
          exact List.rel_of_pairwise_cons hpair ha
        rw [h1, h2]
        rfl
      · exact (List.pairwise_cons.mp hpair).2

/-- Without deduplication, `enumerateStaticWallets` is the fueled
recursion started at base `[]` and floor `0`. -/
lemma enumerateStaticWallets_false (k : Nat) :
    enumerateStaticWallets k false = enumerateStaticSubWalletsFuel (2 ^ k) [] 0 k := by
  rw [enumerateStaticWallets, enumerateStaticSubWallets]
  simp

/-- Clean membership characterization of the undeduplicated
enumeration. -/
lemma mem_enumerateStaticWallets (k : Nat) (w : List Nat) :
    w ∈ enumerateStaticWallets k false ↔ ∃ ext, IsExtension k [] 0 ext ∧ w = ext := by
  rw [enumerateStaticWallets_false]
  rw [mem_subWalletsFuel k (2 ^ k) [] 0 (by omega) w]
  constructor
  · rintro ⟨e, h, hw⟩
    exact ⟨e, h, by simpa using hw⟩
  · rintro ⟨e, h, hw⟩
    exact ⟨e, h, by simpa using hw⟩

/-- Structural facts about every emitted wallet: non-empty, strictly
increasing, in range and an antichain list. -/
lemma enumerated_wallet_props (k : Nat) :
    ∀ w ∈ enumerateStaticWallets k false,
      w ≠ [] ∧ List.Pairwise (· < ·) w ∧ (∀ c ∈ w, 1 ≤ c ∧ c < 2 ^ k) ∧
      List.Pairwise (fun a b => ¬(a &&& b = a)) w := by
  intro w hw
  obtain ⟨e, hext, rfl⟩ := (mem_enumerateStaticWallets k w).mp hw
  obtain ⟨hne, hchain, hub, hpair, _⟩ := isExtension_props hext
  have hpw : List.Pairwise (· < ·) (0 :: w) := List.chain_iff_pairwise.mp hchain
  rw [List.pairwise_cons] at hpw
  refine ⟨hne, hpw.2, ?_, hpair⟩
  intro c hc
  exact ⟨hpw.1 c hc, hub c hc⟩

/-- C1: the undeduplicated enumeration produces exactly the non-empty
antichains of non-zero masks below `2 ^ keyCount`: every emitted wallet
is one, no two emitted wallets are equal as sets, and every such
antichain is emitted. -/
theorem C1_enumeration_characterization (k : Nat) (_hk : 1 ≤ k) :
    (∀ w ∈ enumerateStaticWallets k false,
      w ≠ [] ∧ (∀ c ∈ w, 1 ≤ c ∧ c < 2 ^ k) ∧
      ∀ a ∈ w, ∀ b ∈ w, a &&& b = a → a = b) ∧
    (enumerateStaticWallets k false).Pairwise (fun u v => u.toFinset ≠ v.toFinset) ∧
    ∀ s : Finset Nat, s.Nonempty → (∀ c ∈ s, 1 ≤ c ∧ c < 2 ^ k) →
      (∀ a ∈ s, ∀ b ∈ s, a &&& b = a → a = b) →
      ∃ w ∈ enumerateStaticWallets k false, w.toFinset = s := by
  refine ⟨?_, ?_, ?_⟩
  · intro w hw
    obtain ⟨hne, hsorted, hbnd, hpair⟩ := enumerated_wallet_props k w hw
    refine ⟨hne, hbnd, ?_⟩
    have hR : List.Pairwise (fun a b => ¬(a &&& b = a) ∧ ¬(b &&& a = b)) w := by
      refine (hsorted.and hpair).imp ?_
      rintro a b ⟨hab, hnab⟩
      refine ⟨hnab, ?_⟩
      intro hba
      have hba2 : b ≤ a := by
        calc b = b &&& a := hba.symm
          _ ≤ a := Nat.and_le_right
      omega
    have hsymm : Symmetric (fun a b : Nat => ¬(a &&& b = a) ∧ ¬(b &&& a = b)) := by
      intro a b h
      exact ⟨h.2, h.1⟩
    intro a ha b hb hab
    by_contra hne2
    exact (hR.forall hsymm ha hb hne2).1 hab
  · have hnd : (enumerateStaticWallets k false).Nodup := by
      rw [enumerateStaticWallets_false]
      exact nodup_subWalletsFuel k (2 ^ k) [] 0 (by omega)
    refine List.Pairwise.imp_of_mem ?_ hnd
    intro u v hu hv huv hset
    obtain ⟨_, hsu, _, _⟩ := enumerated_wallet_props k u hu
    obtain ⟨_, hsv, _, _⟩ := enumerated_wallet_props k v hv
    have hndu : u.Nodup := hsu.imp ne_of_lt
    have hndv : v.Nodup := hsv.imp ne_of_lt
    have hperm : u.Perm v := List.perm_of_nodup_nodup_toFinset_eq hndu hndv hset
    exact huv (List.eq_of_perm_of_sorted hperm (hsu.imp le_of_lt) (hsv.imp le_of_lt))
  · intro s hsne hbnd hanti
    have hsort : List.Sorted (· < ·) (s.sort (· ≤ ·)) := Finset.sort_sorted_lt s
    have hne : s.sort (· ≤ ·) ≠ [] := by
      intro h0
      have hts := Finset.sort_toFinset (· ≤ ·) s
      rw [h0] at hts
      rcases hsne with ⟨x, hx⟩
      rw [← hts] at hx
      simp at hx
    have hmem2 : ∀ a ∈ s.sort (· ≤ ·), a ∈ s := fun a ha => (Finset.mem_sort _).mp ha
    have hchain : List.Chain (· < ·) 0 (s.sort (· ≤ ·)) := by
      rw [List.chain_iff_pairwise, List.pairwise_cons]
      exact ⟨fun a ha => (hbnd a (hmem2 a ha)).1, hsort⟩
    have hpair : List.Pairwise (fun a b => ¬(a &&& b = a)) (s.sort (· ≤ ·)) := by
      refine List.Pairwise.imp_of_mem ?_ hsort
      intro a b ha hb hlt hsub
      exact absurd (hanti a (hmem2 a ha) b (hmem2 b hb) hsub) (ne_of_lt hlt)
    have hext : IsExtension k [] 0 (s.sort (· ≤ ·)) :=
      isExtension_build k _ [] 0 hne hchain (fun a ha => (hbnd a (hmem2 a ha)).2)
        (fun a _ => rfl) hpair
    exact ⟨s.sort (· ≤ ·), (mem_enumerateStaticWallets k _).mpr ⟨_, hext, rfl⟩,
      Finset.sort_toFinset _ s⟩

/-- Witness for C1 at `keyCount = 2`. -/
theorem C1_witness :
    (∀ w ∈ enumerateStaticWallets 2 false,
      w ≠ [] ∧ (∀ c ∈ w, 1 ≤ c ∧ c < 2 ^ 2) ∧
      ∀ a ∈ w, ∀ b ∈ w, a &&& b = a → a = b) ∧
    (enumerateStaticWallets 2 false).Pairwise (fun u v => u.toFinset ≠ v.toFinset) ∧
    ∀ s : Finset Nat, s.Nonempty → (∀ c ∈ s, 1 ≤ c ∧ c < 2 ^ 2) →
      (∀ a ∈ s, ∀ b ∈ s, a &&& b = a → a = b) →
      ∃ w ∈ enumerateStaticWallets 2 false, w.toFinset = s :=
  C1_enumeration_characterization 2 (by norm_num)
